import Mathlib

/-!
# Verification of the Audacity `Envelope` core (`src/Envelope.cpp`)

A shallow embedding of the envelope data model and its operations, with
theorems settling the frozen claims about the natural-language
specification.  C++ `double` arithmetic is modelled by exact rational
arithmetic (`ℚ`); the transcendental functions (`log10`, `pow(10,·)`,
`log`, `exp`) are abstract parameters `(L E : ℚ → ℚ)` resp.
`(lnQ expQ : ℚ → ℚ)`, so every definition stays executable and theorems
quantify over them (adding the algebraic facts the real functions enjoy
as explicit hypotheses where a proof needs them).
-/

attribute [local semireducible] Rat.add Rat.mul Rat.sub Rat.inv

namespace Audacity

/-- A single control point `(time, value)`, from `EnvPoint` (times and
values are `double` in the source, modelled as `ℚ`). -/
structure EnvPoint where
  mT : ℚ
  mVal : ℚ
deriving DecidableEq, Repr, Inhabited

/-- `EnvPoint::GetT`. -/
def EnvPoint.GetT (p : EnvPoint) : ℚ := p.mT

/-- `EnvPoint::GetVal`. -/
def EnvPoint.GetVal (p : EnvPoint) : ℚ := p.mVal

/-- `EnvPoint::SetT`. -/
def EnvPoint.SetT (p : EnvPoint) (t : ℚ) : EnvPoint := { p with mT := t }

/-- The `Envelope` state: interpolation mode flag `mDB`, value range,
default value, time offset, span length `mTrackLen`, the ordered point
sequence `mEnv`, and the transient drag state.  The mutable search-hint
cache `mSearchGuess` is threaded explicitly through the query functions
instead of being a field, since it is `mutable` state of `const` methods. -/
structure Envelope where
  mDB : Bool
  mMinValue : ℚ
  mMaxValue : ℚ
  mDefaultValue : ℚ
  mOffset : ℚ
  mTrackLen : ℚ
  mEnv : List EnvPoint
  mDragPoint : ℤ
  mDragPointValid : Bool
deriving DecidableEq, Repr, Inhabited

/-- Modelled from the spec: `Envelope::ClampValue` is declared in
`Envelope.h`, which is not part of the sources; per the spec,
`valueRange: (minValue, maxValue) — clamps all stored and queried
values`, it clamps a value into `[mMinValue, mMaxValue]`
(as `std::max(mMinValue, std::min(mMaxValue, value))`). -/
def Envelope.ClampValue (e : Envelope) (value : ℚ) : ℚ :=
  max e.mMinValue (min e.mMaxValue value)

/-- Modelled from the spec: `EnvPoint::SetVal` is declared in
`Envelope.h`, which is not part of the sources; per the spec
(`Values are always clamped to valueRange on write`), it stores the
value clamped through the owning envelope. -/
def EnvPoint.SetVal (p : EnvPoint) (e : Envelope) (val : ℚ) : EnvPoint :=
  { p with mVal := e.ClampValue val }

/-- Modelled from the spec: construction of an `EnvPoint` to be stored in
an envelope (`EnvPoint e{ when, value }` in the source; the constructor
lives in `Envelope.h`, which is not part of the sources).  Per the spec,
`Values are always clamped to valueRange on write`. -/
def Envelope.mkPoint (e : Envelope) (t v : ℚ) : EnvPoint :=
  ⟨t, e.ClampValue v⟩

/-- Time of the `i`-th point (out-of-range access yields the default
point, standing in for the C++ precondition that the index is valid). -/
def tAt (env : List EnvPoint) (i : ℕ) : ℚ := (env.getD i default).GetT

/-- Value of the `i`-th point. -/
def vAt (env : List EnvPoint) (i : ℕ) : ℚ := (env.getD i default).GetVal

/-- The point times, in sequence order. -/
def timesOf (env : List EnvPoint) : List ℚ := env.map EnvPoint.GetT

/-- The point values, in sequence order. -/
def valsOf (env : List EnvPoint) : List ℚ := env.map EnvPoint.GetVal

/-- Strictly-ascending-by-time invariant on the point sequence. -/
def strictSorted (env : List EnvPoint) : Prop :=
  (timesOf env).Chain' (· < ·)

/-- Weak (nondecreasing) ordering of the point sequence by time. -/
def weakSorted (env : List EnvPoint) : Prop :=
  (timesOf env).Chain' (· ≤ ·)

/-- Boolean check for `Chain' (· < ·)` (used only to compute the sorted
predicates on concrete inputs). -/
def chainLtB : List ℚ → Bool
  | a :: b :: l => decide (a < b) && chainLtB (b :: l)
  | _ => true

/-- Boolean check for `Chain' (· ≤ ·)`. -/
def chainLeB : List ℚ → Bool
  | a :: b :: l => decide (a ≤ b) && chainLeB (b :: l)
  | _ => true

theorem chainLtB_iff : ∀ l : List ℚ, chainLtB l = true ↔ l.Chain' (· < ·)
  | [] => by simp [chainLtB]
  | [a] => by simp [chainLtB]
  | a :: b :: l => by
    rw [chainLtB, List.chain'_cons, Bool.and_eq_true, decide_eq_true_iff,
      chainLtB_iff (b :: l)]

theorem chainLeB_iff : ∀ l : List ℚ, chainLeB l = true ↔ l.Chain' (· ≤ ·)
  | [] => by simp [chainLeB]
  | [a] => by simp [chainLeB]
  | a :: b :: l => by
    rw [chainLeB, List.chain'_cons, Bool.and_eq_true, decide_eq_true_iff,
      chainLeB_iff (b :: l)]

instance (env : List EnvPoint) : Decidable (strictSorted env) :=
  decidable_of_iff (chainLtB (timesOf env) = true) (chainLtB_iff (timesOf env))

instance (env : List EnvPoint) : Decidable (weakSorted env) :=
  decidable_of_iff (chainLeB (timesOf env) = true) (chainLeB_iff (timesOf env))

/-! ## Point mutation (`Envelope.cpp`) -/

/-- `Envelope::Flatten`. -/
def Envelope.Flatten (e : Envelope) (value : ℚ) : Envelope :=
  { e with mEnv := [], mDefaultValue := e.ClampValue value }

/-- `Envelope::SetRange`. -/
def Envelope.SetRange (e : Envelope) (minValue maxValue : ℚ) : Envelope :=
  let e1 := { e with mMinValue := minValue, mMaxValue := maxValue }
  { e1 with
    mDefaultValue := e1.ClampValue e1.mDefaultValue
    mEnv := e1.mEnv.map (fun p => p.SetVal e1 p.GetVal) }

/-- `Envelope::RescaleValues`. -/
def Envelope.RescaleValues (e : Envelope) (minValue maxValue : ℚ) : Envelope :=
  let oldMinValue := e.mMinValue
  let oldMaxValue := e.mMaxValue
  let e1 := { e with mMinValue := minValue, mMaxValue := maxValue }
  let factor := (e1.mDefaultValue - oldMinValue) / (oldMaxValue - oldMinValue)
  let e2 := { e1 with
    mDefaultValue := e1.ClampValue (e1.mMinValue + (e1.mMaxValue - e1.mMinValue) * factor) }
  { e2 with
    mEnv := e2.mEnv.map (fun p =>
      p.SetVal e2 (e2.mMinValue + (e2.mMaxValue - e2.mMinValue) *
        ((p.GetVal - oldMinValue) / (oldMaxValue - oldMinValue)))) }

/-- `Envelope::Delete`. -/
def Envelope.Delete (e : Envelope) (point : ℕ) : Envelope :=
  { e with mEnv := e.mEnv.eraseIdx point }

/-- `Envelope::Insert`. -/
def Envelope.Insert (e : Envelope) (point : ℕ) (p : EnvPoint) : Envelope :=
  { e with mEnv := e.mEnv.insertIdx point p }

/-- Index reached by the scan `while (i < len && when > mEnv[i].GetT()) i++;`
used by `InsertOrReplaceRelative` and `Reassign`. -/
def scanIndex (env : List EnvPoint) (when : ℚ) : ℕ :=
  (env.takeWhile (fun p => decide (p.GetT < when))).length

/-- `Envelope::InsertOrReplaceRelative`, returning the updated envelope
and the returned index. -/
def Envelope.InsertOrReplaceRelative (e : Envelope) (when value : ℚ) :
    Envelope × ℤ :=
  let len := e.mEnv.length
  if 0 < len ∧ when < 0 then (e, 0)
  else if 1 < len ∧ e.mTrackLen < when then (e, (len : ℤ) - 1)
  else
    let when1 := if when < 0 then 0 else when
    let when2 := if 1 < len ∧ e.mTrackLen < when1 then e.mTrackLen else when1
    let i := scanIndex e.mEnv when2
    if i < len ∧ when2 = tAt e.mEnv i then
      ({ e with mEnv := e.mEnv.set i ((e.mEnv.getD i default).SetVal e value) }, i)
    else
      ({ e with mEnv := e.mEnv.insertIdx i (e.mkPoint when2 value) }, i)

/-- `Envelope::Reassign`, returning the updated envelope and the
`int` result (`0` on success, `-1` when no point matches). -/
def Envelope.Reassign (e : Envelope) (when value : ℚ) : Envelope × ℤ :=
  let when1 := when - e.mOffset
  let len := e.mEnv.length
  if len = 0 then (e, -1)
  else
    let i := scanIndex e.mEnv when1
    if len ≤ i ∨ when1 < tAt e.mEnv i then (e, -1)
    else
      ({ e with mEnv := e.mEnv.set i ((e.mEnv.getD i default).SetVal e value) }, 0)

/-- Loop body of `Envelope::AddPointAtEnd`: starting from `nn = size - 1`,
while `nn ≥ 2` and the point two slots below has the same time as the
appended one, erase the point in the middle. -/
def addPointLoop (t : ℚ) : List EnvPoint → ℕ → List EnvPoint
  | env, nn + 2 =>
    if tAt env nn = t then addPointLoop t (env.eraseIdx (nn + 1)) (nn + 1)
    else env
  | env, _ => env

/-- `Envelope::AddPointAtEnd`. -/
def Envelope.AddPointAtEnd (e : Envelope) (t val : ℚ) : Envelope :=
  let env1 := e.mEnv ++ [e.mkPoint t val]
  { e with mEnv := addPointLoop t env1 (env1.length - 1) }

/-! ## Drag state (`SetDragPoint` / `SetDragPointValid` / `MoveDragPoint`) -/

/-- `std::numeric_limits<double>::max()`, the off-screen sentinel time. -/
def bigDoubleMax : ℚ := 2 ^ 1024 - 2 ^ 971

/-- `Envelope::SetDragPoint`. -/
def Envelope.SetDragPoint (e : Envelope) (dragPoint : ℤ) : Envelope :=
  let dp := max (-1) (min ((e.mEnv.length : ℤ) - 1) dragPoint)
  { e with mDragPoint := dp, mDragPointValid := decide (0 ≤ dp) }

/-- `Envelope::SetDragPointValid`. -/
def Envelope.SetDragPointValid (e : Envelope) (valid : Bool) : Envelope :=
  let e1 := { e with mDragPointValid := valid && decide (0 ≤ e.mDragPoint) }
  if 0 ≤ e1.mDragPoint ∧ valid = false then
    let size := e1.mEnv.length
    let dp := e1.mDragPoint.toNat
    if size ≤ 1 then
      let p := ((e1.mEnv.getD dp default).SetT bigDoubleMax).SetVal e1 e1.mDefaultValue
      { e1 with mEnv := e1.mEnv.set dp p }
    else if dp + 1 = size then
      let p := ((e1.mEnv.getD dp default).SetT bigDoubleMax).SetVal e1 (vAt e1.mEnv (size - 1))
      { e1 with mEnv := e1.mEnv.set dp p }
    else
      let p := ((e1.mEnv.getD dp default).SetT (tAt e1.mEnv (dp + 1))).SetVal e1 (vAt e1.mEnv (dp + 1))
      { e1 with mEnv := e1.mEnv.set dp p }
  else e1

/-- `Envelope::MoveDragPoint`. -/
def Envelope.MoveDragPoint (e : Envelope) (newWhen value : ℚ) : Envelope :=
  let e1 := e.SetDragPointValid true
  if e1.mDragPointValid = false then e1
  else
    let limitLo : ℚ :=
      if 0 < e1.mDragPoint then max 0 (tAt e1.mEnv (e1.mDragPoint - 1).toNat) else 0
    let limitHi : ℚ :=
      if e1.mDragPoint + 1 < (e1.mEnv.length : ℤ) then
        min e1.mTrackLen (tAt e1.mEnv (e1.mDragPoint + 1).toNat)
      else e1.mTrackLen
    let dp := e1.mDragPoint.toNat
    let tt := max limitLo (min limitHi newWhen)
    let p := ((e1.mEnv.getD dp default).SetT tt).SetVal e1 value
    { e1 with mEnv := e1.mEnv.set dp p }

/-! ## Bracket search (`Envelope::BinarySearchForTime`) -/

/-- The binary-search loop of `BinarySearchForTime`: shrink `(Lo, Hi)`
while `Hi > Lo + 1`, probing `mid = (Lo + Hi) / 2` (C++ `int` division;
both bounds stay in `[-1, size]`, so the dividend is nonnegative and
truncating division coincides with `Int.ediv`).  The loop halves
`Hi - Lo` each round, so `fuel` rounds suffice whenever
`Hi - Lo ≤ fuel + 1` and the fuel case is never reached from the entry
point below. -/
def bsLoop (env : List EnvPoint) (t : ℚ) : ℕ → ℤ → ℤ → ℤ × ℤ
  | fuel + 1, Lo, Hi =>
    if Lo + 1 < Hi then
      let mid := (Lo + Hi) / 2
      if t < tAt env mid.toNat then bsLoop env t fuel Lo mid
      else bsLoop env t fuel mid Hi
    else (Lo, Hi)
  | 0, Lo, Hi => (Lo, Hi)

/-- Does the hint `g` (the value of the mutable member `mSearchGuess`)
pass the fast-path check of `BinarySearchForTime`? -/
def guessHolds (env : List EnvPoint) (g : ℤ) (t : ℚ) : Bool :=
  decide (0 ≤ g) && decide (g < (env.length : ℤ)) && decide (tAt env g.toNat ≤ t) &&
    (decide (g + 1 = (env.length : ℤ)) || decide (t < tAt env (g + 1).toNat))

/-- `Envelope::BinarySearchForTime` (relative time).  Returns the pair
`(Lo, Hi)` and the updated value of the mutable cache `mSearchGuess`. -/
def binarySearchForTime (env : List EnvPoint) (g : ℤ) (t : ℚ) : (ℤ × ℤ) × ℤ :=
  if guessHolds env g t then ((g, g + 1), g)
  else
    let g1 := g + 1
    if guessHolds env g1 t then ((g1, g1 + 1), g1)
    else
      let p := bsLoop env t (env.length + 1) (-1) (env.length : ℤ)
      (p, p.1)

/-- `Envelope::NumberOfPointsAfter` (relative time). -/
def Envelope.NumberOfPointsAfter (e : Envelope) (g : ℤ) (t : ℚ) : ℤ :=
  let hi := (binarySearchForTime e.mEnv g t).1.2
  (e.mEnv.length : ℤ) - hi

/-- `Envelope::NextPointAfter` (relative time). -/
def Envelope.NextPointAfter (e : Envelope) (g : ℤ) (t : ℚ) : ℚ :=
  let hi := (binarySearchForTime e.mEnv g t).1.2
  if (e.mEnv.length : ℤ) ≤ hi then t else tAt e.mEnv hi.toNat

/-! ## Value queries (`GetValuesRelative` and callers)

The per-call state of the `GetValuesRelative` loop: the flag `b == 0`,
the current bracket's end time `tnext`, the per-step increment `vstep`,
the previously emitted sample `buffer[b-1]`, and the threaded search
hint.  (`tprev`, `vprev`, `vnext` are recomputed inside the branch that
uses them and need not be carried.) -/
structure GVState where
  isFirst : Bool
  tnext : ℚ
  vstep : ℚ
  prev : ℚ
  guess : ℤ
deriving Repr

/-- Initial loop state (`tnext = 0, vstep = 0` as in the declarations
`double tprev, vprev, tnext = 0, vnext, vstep = 0;`). -/
def GVState.init (g : ℤ) : GVState :=
  { isFirst := true, tnext := 0, vstep := 0, prev := 0, guess := g }

/-- `Envelope::GetInterpolationStartValueAtPoint`: the value at a point,
or its (`L`-abstracted) `log10`. -/
def startValue (L : ℚ → ℚ) (e : Envelope) (iPoint : ℕ) : ℚ :=
  let v := vAt e.mEnv iPoint
  if e.mDB = false then v else L v

/-- One iteration of the `Envelope::GetValuesRelative` loop: returns the
emitted sample `buffer[b]` and the state carried to the next iteration.
`L` stands for `log10` and `E` for `pow(10.0, ·)`. -/
def gvrStep (L E : ℚ → ℚ) (e : Envelope) (tstep t : ℚ) (s : GVState) : ℚ × GVState :=
  let len := e.mEnv.length
  if len = 0 then
    (e.mDefaultValue, { s with isFirst := false, prev := e.mDefaultValue })
  else if t ≤ tAt e.mEnv 0 then
    (vAt e.mEnv 0, { s with isFirst := false, prev := vAt e.mEnv 0 })
  else if tAt e.mEnv (len - 1) ≤ t then
    (vAt e.mEnv (len - 1), { s with isFirst := false, prev := vAt e.mEnv (len - 1) })
  else if s.isFirst = true ∨ s.tnext < t then
    let r := binarySearchForTime e.mEnv s.guess t
    let lo := r.1.1.toNat
    let hi := r.1.2.toNat
    let tprev := tAt e.mEnv lo
    let tnext := tAt e.mEnv hi
    let vprev := startValue L e lo
    let vnext := startValue L e hi
    let dt := tnext - tprev
    let toT := t - tprev
    let v0 := if 0 < dt then (vprev * (dt - toT) + vnext * toT) / dt else vnext
    let vstep0 := if 0 < dt then (vnext - vprev) * tstep / dt else 0
    let v := if e.mDB = true then E v0 else v0
    let vstep := if e.mDB = true then E vstep0 else vstep0
    (v, { isFirst := false, tnext := tnext, vstep := vstep, prev := v, guess := r.2 })
  else
    let v := if e.mDB = true then s.prev * s.vstep else s.prev + s.vstep
    (v, { s with isFirst := false, prev := v })

/-- The `for (b = 0; b < bufferLen; b++)` loop of `GetValuesRelative`. -/
def gvrLoop (L E : ℚ → ℚ) (e : Envelope) (tstep : ℚ) :
    ℕ → ℚ → GVState → List ℚ
  | 0, _, _ => []
  | n + 1, t, s =>
    (gvrStep L E e tstep t s).1 ::
      gvrLoop L E e tstep n (t + tstep) (gvrStep L E e tstep t s).2

/-- `Envelope::GetValuesRelative`: fill `bufferLen` samples starting at
relative time `t0`, stepping by `tstep`; `g` is the envelope's current
`mSearchGuess`. -/
def Envelope.GetValuesRelative (L E : ℚ → ℚ) (e : Envelope) (g : ℤ)
    (bufferLen : ℕ) (t0 tstep : ℚ) : List ℚ :=
  gvrLoop L E e tstep bufferLen t0 (GVState.init g)

/-- `Envelope::GetValueRelative` (a one-sample `GetValuesRelative` with
`tstep = 1.0`). -/
def Envelope.GetValueRelative (L E : ℚ → ℚ) (e : Envelope) (g : ℤ) (t : ℚ) : ℚ :=
  (e.GetValuesRelative L E g 1 t 1).getD 0 0

/-- `Envelope::GetValue` (absolute time). -/
def Envelope.GetValue (L E : ℚ → ℚ) (e : Envelope) (g : ℤ) (t : ℚ) : ℚ :=
  e.GetValueRelative L E g (t - e.mOffset)

/-- `Envelope::GetValues` (absolute time: `t0 -= mOffset` then the
relative loop). -/
def Envelope.GetValues (L E : ℚ → ℚ) (e : Envelope) (g : ℤ)
    (bufferLen : ℕ) (t0 tstep : ℚ) : List ℚ :=
  e.GetValuesRelative L E g bufferLen (t0 - e.mOffset) tstep

/-! ## Integration (`Integral`, `IntegralOfInverse` and helpers) -/

/-- Static helper `InterpolatePoints`; `lnQ`/`expQ` stand for the C
`log`/`exp`. -/
def InterpolatePoints (lnQ expQ : ℚ → ℚ) (y1 y2 factor : ℚ) (logarithmic : Bool) : ℚ :=
  if logarithmic = true then expQ (lnQ y1 * (1 - factor) + lnQ y2 * factor)
  else y1 * (1 - factor) + y2 * factor

/-- Static helper `IntegrateInterpolated`. -/
def IntegrateInterpolated (lnQ : ℚ → ℚ) (y1 y2 time : ℚ) (logarithmic : Bool) : ℚ :=
  if logarithmic = true then
    let l := lnQ (y1 / y2)
    if |l| < 1 / 100000 then (y1 + y2) * (1 / 2) * time
    else (y1 - y2) / l * time
  else (y1 + y2) * (1 / 2) * time

/-- Static helper `IntegrateInverseInterpolated`. -/
def IntegrateInverseInterpolated (lnQ : ℚ → ℚ) (y1 y2 time : ℚ) (logarithmic : Bool) : ℚ :=
  let l := lnQ (y1 / y2)
  if |l| < 1 / 100000 then 2 / (y1 + y2) * time
  else if logarithmic = true then (y1 - y2) / (l * y1 * y2) * time
  else l / (y1 - y2) * time

/-- The `while (1)` loop of `Envelope::Integral`, entered with `i` the
next point index, `lastT`/`lastVal` the left end of the pending segment
and `total` the accumulated integral. -/
def integralLoop (lnQ expQ : ℚ → ℚ) (e : Envelope) (t1 : ℚ) :
    ℕ → ℕ → ℚ → ℚ → ℚ → ℚ
  | fuel + 1, i, lastT, lastVal, total =>
    if e.mEnv.length ≤ i then total + (t1 - lastT) * lastVal
    else if t1 ≤ tAt e.mEnv i then
      let thisVal := InterpolatePoints lnQ expQ (vAt e.mEnv (i - 1)) (vAt e.mEnv i)
        ((t1 - tAt e.mEnv (i - 1)) / (tAt e.mEnv i - tAt e.mEnv (i - 1))) e.mDB
      total + IntegrateInterpolated lnQ lastVal thisVal (t1 - lastT) e.mDB
    else
      integralLoop lnQ expQ e t1 fuel (i + 1) (tAt e.mEnv i) (vAt e.mEnv i)
        (total + IntegrateInterpolated lnQ lastVal (vAt e.mEnv i) (tAt e.mEnv i - lastT) e.mDB)
  | 0, _, lastT, lastVal, total => total + (t1 - lastT) * lastVal

/-- Body of `Envelope::Integral` after the `t0 == t1` / `t0 > t1`
dispatch (so it is only ever used with `t0 < t1`). -/
def integralGo (lnQ expQ : ℚ → ℚ) (e : Envelope) (g : ℤ) (t0 t1 : ℚ) : ℚ :=
  let count := e.mEnv.length
  if count = 0 then (t1 - t0) * e.mDefaultValue
  else
    let t0 := t0 - e.mOffset
    let t1 := t1 - e.mOffset
    if t0 < tAt e.mEnv 0 then
      if t1 ≤ tAt e.mEnv 0 then (t1 - t0) * vAt e.mEnv 0
      else
        integralLoop lnQ expQ e t1 (count + 1) 1 (tAt e.mEnv 0) (vAt e.mEnv 0)
          ((tAt e.mEnv 0 - t0) * vAt e.mEnv 0)
    else if tAt e.mEnv (count - 1) ≤ t0 then (t1 - t0) * vAt e.mEnv (count - 1)
    else
      let r := binarySearchForTime e.mEnv g t0
      let lo := r.1.1.toNat
      let hi := r.1.2.toNat
      let lastVal := InterpolatePoints lnQ expQ (vAt e.mEnv lo) (vAt e.mEnv hi)
        ((t0 - tAt e.mEnv lo) / (tAt e.mEnv hi - tAt e.mEnv lo)) e.mDB
      integralLoop lnQ expQ e t1 (count + 1) hi t0 lastVal 0

/-- `Envelope::Integral` (absolute times). -/
def Envelope.Integral (lnQ expQ : ℚ → ℚ) (e : Envelope) (g : ℤ) (t0 t1 : ℚ) : ℚ :=
  if t0 = t1 then 0
  else if t1 < t0 then -(integralGo lnQ expQ e g t1 t0)
  else integralGo lnQ expQ e g t0 t1

/-- The `while (1)` loop of `Envelope::IntegralOfInverse`. -/
def inverseLoop (lnQ expQ : ℚ → ℚ) (e : Envelope) (t1 : ℚ) :
    ℕ → ℕ → ℚ → ℚ → ℚ → ℚ
  | fuel + 1, i, lastT, lastVal, total =>
    if e.mEnv.length ≤ i then total + (t1 - lastT) / lastVal
    else if t1 ≤ tAt e.mEnv i then
      let thisVal := InterpolatePoints lnQ expQ (vAt e.mEnv (i - 1)) (vAt e.mEnv i)
        ((t1 - tAt e.mEnv (i - 1)) / (tAt e.mEnv i - tAt e.mEnv (i - 1))) e.mDB
      total + IntegrateInverseInterpolated lnQ lastVal thisVal (t1 - lastT) e.mDB
    else
      inverseLoop lnQ expQ e t1 fuel (i + 1) (tAt e.mEnv i) (vAt e.mEnv i)
        (total + IntegrateInverseInterpolated lnQ lastVal (vAt e.mEnv i) (tAt e.mEnv i - lastT) e.mDB)
  | 0, _, lastT, lastVal, total => total + (t1 - lastT) / lastVal

/-- Body of `Envelope::IntegralOfInverse` after the order dispatch. -/
def inverseGo (lnQ expQ : ℚ → ℚ) (e : Envelope) (g : ℤ) (t0 t1 : ℚ) : ℚ :=
  let count := e.mEnv.length
  if count = 0 then (t1 - t0) / e.mDefaultValue
  else
    let t0 := t0 - e.mOffset
    let t1 := t1 - e.mOffset
    if t0 < tAt e.mEnv 0 then
      if t1 ≤ tAt e.mEnv 0 then (t1 - t0) / vAt e.mEnv 0
      else
        inverseLoop lnQ expQ e t1 (count + 1) 1 (tAt e.mEnv 0) (vAt e.mEnv 0)
          ((tAt e.mEnv 0 - t0) / vAt e.mEnv 0)
    else if tAt e.mEnv (count - 1) ≤ t0 then (t1 - t0) / vAt e.mEnv (count - 1)
    else
      let r := binarySearchForTime e.mEnv g t0
      let lo := r.1.1.toNat
      let hi := r.1.2.toNat
      let lastVal := InterpolatePoints lnQ expQ (vAt e.mEnv lo) (vAt e.mEnv hi)
        ((t0 - tAt e.mEnv lo) / (tAt e.mEnv hi - tAt e.mEnv lo)) e.mDB
      inverseLoop lnQ expQ e t1 (count + 1) hi t0 lastVal 0

/-- `Envelope::IntegralOfInverse` (absolute times). -/
def Envelope.IntegralOfInverse (lnQ expQ : ℚ → ℚ) (e : Envelope) (g : ℤ) (t0 t1 : ℚ) : ℚ :=
  if t0 = t1 then 0
  else if t1 < t0 then -(inverseGo lnQ expQ e g t1 t0)
  else inverseGo lnQ expQ e g t0 t1

/-! ## Access and sortedness lemmas -/

theorem length_timesOf (env : List EnvPoint) : (timesOf env).length = env.length := by
  simp [timesOf]

theorem tAt_eq_getElem (env : List EnvPoint) (i : ℕ) (h : i < env.length) :
    tAt env i = env[i].GetT := by
  rw [tAt, List.getD_eq_getElem env default h]

theorem vAt_eq_getElem (env : List EnvPoint) (i : ℕ) (h : i < env.length) :
    vAt env i = env[i].GetVal := by
  rw [vAt, List.getD_eq_getElem env default h]

theorem strictSorted_iff_pairwise (env : List EnvPoint) :
    strictSorted env ↔ env.Pairwise (fun p q => p.GetT < q.GetT) := by
  rw [strictSorted, List.chain'_iff_pairwise, timesOf, List.pairwise_map]

/-- Under the sorted invariant, earlier points have strictly smaller times. -/
theorem strictSorted_tAt_lt {env : List EnvPoint} (hs : strictSorted env)
    {i j : ℕ} (hij : i < j) (hj : j < env.length) : tAt env i < tAt env j := by
  rw [strictSorted_iff_pairwise, List.pairwise_iff_getElem] at hs
  rw [tAt_eq_getElem env i (lt_trans hij hj), tAt_eq_getElem env j hj]
  exact hs i j (lt_trans hij hj) hj hij

theorem strictSorted_tAt_le {env : List EnvPoint} (hs : strictSorted env)
    {i j : ℕ} (hij : i ≤ j) (hj : j < env.length) : tAt env i ≤ tAt env j := by
  rcases Nat.lt_or_ge i j with h | h
  · exact le_of_lt (strictSorted_tAt_lt hs h hj)
  · have : i = j := le_antisymm hij h
    rw [this]

/-! ## The scan index `while (i < len && when > mEnv[i].GetT()) i++` -/

theorem scanIndex_le_length (env : List EnvPoint) (w : ℚ) :
    scanIndex env w ≤ env.length :=
  (List.takeWhile_prefix _).length_le

theorem scanIndex_spec_lt (env : List EnvPoint) (w : ℚ) {i : ℕ}
    (h : i < scanIndex env w) : tAt env i < w := by
  induction env generalizing i with
  | nil => simp [scanIndex] at h
  | cons a l ih =>
    by_cases ha : a.GetT < w
    · rcases i with _ | i
      · simpa [tAt] using ha
      · have h2 : i < scanIndex l w := by
          simpa [scanIndex, List.takeWhile_cons, ha] using h
        simpa [tAt] using ih h2
    · simp [scanIndex, List.takeWhile_cons, ha] at h

theorem scanIndex_spec_ge (env : List EnvPoint) (w : ℚ)
    (h : scanIndex env w < env.length) : w ≤ tAt env (scanIndex env w) := by
  induction env with
  | nil => simp at h
  | cons a l ih =>
    by_cases ha : a.GetT < w
    · have hstep : scanIndex (a :: l) w = scanIndex l w + 1 := by
        simp [scanIndex, List.takeWhile_cons, ha]
      rw [hstep] at h ⊢
      simp only [List.length_cons] at h
      simpa [tAt] using ih (by omega)
    · have h0 : scanIndex (a :: l) w = 0 := by
        simp [scanIndex, List.takeWhile_cons, ha]
      rw [h0]
      simpa [tAt] using le_of_not_lt ha

/-! ## Correctness of the bracket search -/

/-- `(lo, hi)` is a bracket for time `t`: adjacent indices with
`points[lo].time ≤ t < points[hi].time`, the sentinels being `-1` on the
left and `size` on the right. -/
def isBracket (env : List EnvPoint) (t : ℚ) (lo hi : ℤ) : Prop :=
  hi = lo + 1 ∧ -1 ≤ lo ∧ hi ≤ (env.length : ℤ) ∧
    (lo = -1 ∨ tAt env lo.toNat ≤ t) ∧
    (hi = (env.length : ℤ) ∨ t < tAt env hi.toNat)

theorem bsLoop_isBracket (env : List EnvPoint) (t : ℚ) :
    ∀ (fuel : ℕ) (Lo Hi : ℤ), -1 ≤ Lo → Hi ≤ (env.length : ℤ) → Lo < Hi →
      (Hi - Lo).toNat ≤ fuel + 1 →
      (Lo = -1 ∨ tAt env Lo.toNat ≤ t) →
      (Hi = (env.length : ℤ) ∨ t < tAt env Hi.toNat) →
      isBracket env t (bsLoop env t fuel Lo Hi).1 (bsLoop env t fuel Lo Hi).2
  | 0, Lo, Hi, h1, h2, h3, hfuel, hlo, hhi => by
    have : Hi = Lo + 1 := by omega
    exact ⟨by simp [bsLoop, this], by simp [bsLoop]; omega, by simp [bsLoop]; omega,
      by simpa [bsLoop] using hlo, by simpa [bsLoop] using hhi⟩
  | fuel + 1, Lo, Hi, h1, h2, h3, hfuel, hlo, hhi => by
    rw [bsLoop]
    by_cases hcond : Lo + 1 < Hi
    · have hmid1 : Lo + 1 ≤ (Lo + Hi) / 2 := by omega
      have hmid2 : (Lo + Hi) / 2 ≤ Hi - 1 := by omega
      simp only [if_pos hcond]
      by_cases hc2 : t < tAt env ((Lo + Hi) / 2).toNat
      · simp only [if_pos hc2]
        exact bsLoop_isBracket env t fuel Lo ((Lo + Hi) / 2) h1 (by omega) (by omega)
          (by omega) hlo (Or.inr hc2)
      · simp only [if_neg hc2]
        exact bsLoop_isBracket env t fuel ((Lo + Hi) / 2) Hi (by omega) h2 (by omega)
          (by omega) (Or.inr (le_of_not_lt hc2)) hhi
    · have : Hi = Lo + 1 := by omega
      exact ⟨by simp [if_neg hcond, this], by simp [if_neg hcond]; omega,
        by simp [if_neg hcond]; omega, by simpa [if_neg hcond] using hlo,
        by simpa [if_neg hcond] using hhi⟩

theorem guessHolds_isBracket {env : List EnvPoint} {g : ℤ} {t : ℚ}
    (h : guessHolds env g t = true) : isBracket env t g (g + 1) := by
  rw [guessHolds] at h
  simp only [Bool.and_eq_true, Bool.or_eq_true, decide_eq_true_iff] at h
  obtain ⟨⟨⟨h0, h1⟩, h2⟩, h3⟩ := h
  exact ⟨rfl, by omega, by omega, Or.inr h2, h3⟩

/-- The pair returned by `BinarySearchForTime` is always a bracket
(whatever the cache hint). -/
theorem binarySearch_isBracket (env : List EnvPoint) (g : ℤ) (t : ℚ) :
    isBracket env t (binarySearchForTime env g t).1.1 (binarySearchForTime env g t).1.2 := by
  rw [binarySearchForTime]
  by_cases h1 : guessHolds env g t = true
  · simpa [h1] using guessHolds_isBracket h1
  · by_cases h2 : guessHolds env (g + 1) t = true
    · simpa [h1, h2] using guessHolds_isBracket h2
    · simp only [h1, h2, Bool.false_eq_true, if_false]
      exact bsLoop_isBracket env t (env.length + 1) (-1) (env.length : ℤ)
        (by omega) (by omega) (by omega) (by omega) (Or.inl rfl) (Or.inl rfl)

/-- For a strictly sorted point sequence a bracket is unique. -/
theorem isBracket_unique {env : List EnvPoint} (hs : strictSorted env) {t : ℚ}
    {lo hi lo' hi' : ℤ} (h : isBracket env t lo hi) (h' : isBracket env t lo' hi') :
    lo = lo' ∧ hi = hi' := by
  obtain ⟨e1, b1, u1, l1, r1⟩ := h
  obtain ⟨e1', b1', u1', l1', r1'⟩ := h'
  subst e1
  subst e1'
  have key : ∀ a b : ℤ, b + 1 ≤ (env.length : ℤ) → -1 ≤ a → a < b →
      (a + 1 = (env.length : ℤ) ∨ t < tAt env (a + 1).toNat) →
      (b = -1 ∨ tAt env b.toNat ≤ t) → False := by
    intro a b hu hb hab hr hl
    have ht1 : tAt env b.toNat ≤ t := by
      rcases hl with hl | hl
      · omega
      · exact hl
    have ht2 : t < tAt env (a + 1).toNat := by
      rcases hr with hr | hr
      · omega
      · exact hr
    have hle : tAt env (a + 1).toNat ≤ tAt env b.toNat :=
      strictSorted_tAt_le hs (by omega) (by omega)
    linarith
  rcases lt_trichotomy lo lo' with hlt | heq | hgt
  · exact absurd (key lo lo' u1' b1 hlt r1 l1') not_false
  · exact ⟨heq, by omega⟩
  · exact absurd (key lo' lo u1 b1' hgt r1' l1) not_false

/-- Canonical bracket index: the number of points with time `≤ t`
(for a sorted sequence these form a prefix).  The canonical bracket is
`(canonIdx - 1, canonIdx)`. -/
def canonIdx (env : List EnvPoint) (t : ℚ) : ℕ :=
  (env.takeWhile (fun p => decide (p.GetT ≤ t))).length

theorem canonIdx_le_length (env : List EnvPoint) (t : ℚ) :
    canonIdx env t ≤ env.length :=
  (List.takeWhile_prefix _).length_le

theorem canonIdx_spec_le (env : List EnvPoint) (t : ℚ) {i : ℕ}
    (h : i < canonIdx env t) : tAt env i ≤ t := by
  induction env generalizing i with
  | nil => simp [canonIdx] at h
  | cons a l ih =>
    by_cases ha : a.GetT ≤ t
    · rcases i with _ | i
      · simpa [tAt] using ha
      · have h2 : i < canonIdx l t := by
          simpa [canonIdx, List.takeWhile_cons, ha] using h
        simpa [tAt] using ih h2
    · simp [canonIdx, List.takeWhile_cons, ha] at h

theorem canonIdx_spec_gt (env : List EnvPoint) (t : ℚ)
    (h : canonIdx env t < env.length) : t < tAt env (canonIdx env t) := by
  induction env with
  | nil => simp at h
  | cons a l ih =>
    by_cases ha : a.GetT ≤ t
    · have hstep : canonIdx (a :: l) t = canonIdx l t + 1 := by
        simp [canonIdx, List.takeWhile_cons, ha]
      rw [hstep] at h ⊢
      simp only [List.length_cons] at h
      simpa [tAt] using ih (by omega)
    · have h0 : canonIdx (a :: l) t = 0 := by
        simp [canonIdx, List.takeWhile_cons, ha]
      rw [h0]
      simpa [tAt] using lt_of_not_ge ha

theorem canon_isBracket (env : List EnvPoint) (t : ℚ) :
    isBracket env t ((canonIdx env t : ℤ) - 1) (canonIdx env t : ℤ) := by
  have hle := canonIdx_le_length env t
  refine ⟨by ring, by omega, by omega, ?_, ?_⟩
  · rcases Nat.eq_zero_or_pos (canonIdx env t) with h0 | h0
    · exact Or.inl (by omega)
    · refine Or.inr ?_
      have : ((canonIdx env t : ℤ) - 1).toNat = canonIdx env t - 1 := by omega
      rw [this]
      exact canonIdx_spec_le env t (by omega)
  · rcases Nat.lt_or_ge (canonIdx env t) env.length with h0 | h0
    · refine Or.inr ?_
      have : ((canonIdx env t : ℤ)).toNat = canonIdx env t := by omega
      rw [this]
      exact canonIdx_spec_gt env t h0
    · exact Or.inl (by omega)

/-- For sorted points, `BinarySearchForTime` returns the canonical
bracket — whatever the value of the `mSearchGuess` cache. -/
theorem binarySearch_eq_canon {env : List EnvPoint} (hs : strictSorted env)
    (g : ℤ) (t : ℚ) :
    (binarySearchForTime env g t).1 =
      ((canonIdx env t : ℤ) - 1, (canonIdx env t : ℤ)) := by
  have h := isBracket_unique hs (binarySearch_isBracket env g t) (canon_isBracket env t)
  exact Prod.ext h.1 h.2

theorem binarySearch_guess_irrel {env : List EnvPoint} (hs : strictSorted env)
    (g g' : ℤ) (t : ℚ) :
    (binarySearchForTime env g t).1 = (binarySearchForTime env g' t).1 := by
  rw [binarySearch_eq_canon hs g t, binarySearch_eq_canon hs g' t]

theorem canonIdx_ge {env : List EnvPoint} (hs : strictSorted env) {t : ℚ} {i : ℕ}
    (hi : i < env.length) (h : tAt env i ≤ t) : i < canonIdx env t := by
  by_contra hc
  push_neg at hc
  have h1 : canonIdx env t < env.length := lt_of_le_of_lt hc hi
  have h2 := canonIdx_spec_gt env t h1
  have h3 := strictSorted_tAt_le hs hc hi
  linarith

theorem canonIdx_lt {env : List EnvPoint} {t : ℚ} {j : ℕ}
    (h : t < tAt env j) : canonIdx env t ≤ j := by
  by_contra hc
  push_neg at hc
  have := canonIdx_spec_le env t hc
  linarith

/-! ## A closed form for a single sample of `GetValuesRelative` -/

/-- The value the recompute branch of `GetValuesRelative` produces for a
sample time `t` inside the bracket `(i, i+1)`. -/
def bracketFormula (L E : ℚ → ℚ) (e : Envelope) (i : ℕ) (t : ℚ) : ℚ :=
  let tprev := tAt e.mEnv i
  let tnext := tAt e.mEnv (i + 1)
  let vprev := startValue L e i
  let vnext := startValue L e (i + 1)
  let dt := tnext - tprev
  let toT := t - tprev
  let v0 := if 0 < dt then (vprev * (dt - toT) + vnext * toT) / dt else vnext
  if e.mDB = true then E v0 else v0

/-- The per-step increment the recompute branch computes for the bracket
`(i, i+1)`. -/
def bracketVStep (L E : ℚ → ℚ) (e : Envelope) (i : ℕ) (tstep : ℚ) : ℚ :=
  let dt := tAt e.mEnv (i + 1) - tAt e.mEnv i
  let vs0 := if 0 < dt then (startValue L e (i + 1) - startValue L e i) * tstep / dt else 0
  if e.mDB = true then E vs0 else vs0

/-- Closed form of one sample of `GetValuesRelative`. -/
def valueFormula (L E : ℚ → ℚ) (e : Envelope) (t : ℚ) : ℚ :=
  if e.mEnv.length = 0 then e.mDefaultValue
  else if t ≤ tAt e.mEnv 0 then vAt e.mEnv 0
  else if tAt e.mEnv (e.mEnv.length - 1) ≤ t then vAt e.mEnv (e.mEnv.length - 1)
  else bracketFormula L E e (canonIdx e.mEnv t - 1) t

/-- Interior sample times have a canonical index strictly between the
ends. -/
theorem canonIdx_interior {e : Envelope} (hs : strictSorted e.mEnv) {t : ℚ}
    (hlen : e.mEnv.length ≠ 0) (h0 : tAt e.mEnv 0 < t)
    (h1 : t < tAt e.mEnv (e.mEnv.length - 1)) :
    1 ≤ canonIdx e.mEnv t ∧ canonIdx e.mEnv t ≤ e.mEnv.length - 1 := by
  constructor
  · exact canonIdx_ge hs (by omega) (le_of_lt h0)
  · exact canonIdx_lt h1

/-- An iteration of the `GetValuesRelative` loop whose recompute
condition holds (flag `b == 0` set, or the sample time beyond the cached
bracket) emits the closed form — from any state and for any `tstep`. -/
theorem gvrStep_cold_eq_valueFormula (L E : ℚ → ℚ) {e : Envelope}
    (hs : strictSorted e.mEnv) (s : GVState) (tstep t : ℚ)
    (hcond : s.isFirst = true ∨ s.tnext < t) :
    (gvrStep L E e tstep t s).1 = valueFormula L E e t := by
  rw [gvrStep, valueFormula]
  by_cases hlen : e.mEnv.length = 0
  · simp [hlen]
  · simp only [hlen, if_false, if_neg hlen]
    by_cases h0 : t ≤ tAt e.mEnv 0
    · simp [h0]
    · simp only [h0, if_false, if_neg h0]
      by_cases h1 : tAt e.mEnv (e.mEnv.length - 1) ≤ t
      · simp [h1]
      · simp only [h1, if_false, if_neg h1]
        have hcan := binarySearch_eq_canon hs s.guess t
        obtain ⟨hc1, hc2⟩ := canonIdx_interior hs hlen (lt_of_not_ge h0) (lt_of_not_ge h1)
        have htn1 : ((canonIdx e.mEnv t : ℤ) - 1).toNat = canonIdx e.mEnv t - 1 := by omega
        have htn2 : ((canonIdx e.mEnv t : ℤ)).toNat = canonIdx e.mEnv t := by omega
        have hsucc : canonIdx e.mEnv t - 1 + 1 = canonIdx e.mEnv t := by omega
        simp only [if_pos hcond]
        rw [bracketFormula]
        simp only [hcan, htn1, htn2, hsucc, List.getD]

/-- `GetValueRelative` is the first iteration of the loop. -/
theorem getValueRelative_eq_step (L E : ℚ → ℚ) (e : Envelope) (g : ℤ) (t : ℚ) :
    e.GetValueRelative L E g t = (gvrStep L E e 1 t (GVState.init g)).1 := by
  rw [Envelope.GetValueRelative, Envelope.GetValuesRelative, gvrLoop]
  rfl

/-- One sample of the `GetValuesRelative` loop equals the closed form —
for any cache hint. -/
theorem getValueRelative_eq_valueFormula (L E : ℚ → ℚ) {e : Envelope}
    (hs : strictSorted e.mEnv) (g : ℤ) (t : ℚ) :
    e.GetValueRelative L E g t = valueFormula L E e t := by
  rw [getValueRelative_eq_step,
    gvrStep_cold_eq_valueFormula L E hs (GVState.init g) 1 t (Or.inl rfl)]

/-! ## Claim C3: the spec's description of `GetValue` -/

/-- The spec's description of `GetValue`, written from the spec's words
(for the refinement comparison): default value when the point set is
empty, the first point's stored value when `t` is at or before the first
point's time, the last point's stored value when `t` is at or after the
last point's time, and otherwise the interpolation between the bracketing
points at fractional position `f = (t - lo.time)/(hi.time - lo.time)` —
linear in Linear mode, on `log10`-transformed values raised back via
`10^x` in Logarithmic mode. -/
def specGetValue (L E : ℚ → ℚ) (e : Envelope) (t : ℚ) : ℚ :=
  if e.mEnv.length = 0 then e.mDefaultValue
  else if t ≤ tAt e.mEnv 0 then vAt e.mEnv 0
  else if tAt e.mEnv (e.mEnv.length - 1) ≤ t then vAt e.mEnv (e.mEnv.length - 1)
  else
    let lo := canonIdx e.mEnv t - 1
    let hi := lo + 1
    let f := (t - tAt e.mEnv lo) / (tAt e.mEnv hi - tAt e.mEnv lo)
    if e.mDB = true then E (L (vAt e.mEnv lo) * (1 - f) + L (vAt e.mEnv hi) * f)
    else vAt e.mEnv lo * (1 - f) + vAt e.mEnv hi * f

theorem valueFormula_eq_spec (L E : ℚ → ℚ) {e : Envelope}
    (hs : strictSorted e.mEnv) (t : ℚ) :
    valueFormula L E e t = specGetValue L E e t := by
  rw [valueFormula, specGetValue]
  by_cases hlen : e.mEnv.length = 0
  · simp [hlen]
  by_cases h0 : t ≤ tAt e.mEnv 0
  · simp [hlen, h0]
  by_cases h1 : tAt e.mEnv (e.mEnv.length - 1) ≤ t
  · simp [hlen, h0, h1]
  simp only [hlen, h0, h1, if_false]
  obtain ⟨hc1, hc2⟩ := canonIdx_interior hs hlen (lt_of_not_ge h0) (lt_of_not_ge h1)
  set i := canonIdx e.mEnv t - 1 with hi_def
  have hsucc : i + 1 = canonIdx e.mEnv t := by omega
  have hlt : i + 1 < e.mEnv.length := by omega
  have hdt : tAt e.mEnv i < tAt e.mEnv (i + 1) :=
    strictSorted_tAt_lt hs (Nat.lt_succ_self i) hlt
  rw [bracketFormula]
  simp only [hsucc]
  set A := tAt e.mEnv i with hA
  set B := tAt e.mEnv (canonIdx e.mEnv t) with hB
  have hdt' : (0:ℚ) < B - A := by
    rw [hA, hB, ← hsucc] at *
    linarith
  have hne : B - A ≠ 0 := ne_of_gt hdt'
  rw [← hsucc]
  simp only [if_pos hdt']
  have key : ∀ a b : ℚ,
      (a * (B - A - (t - A)) + b * (t - A)) / (B - A) =
        a * (1 - (t - A) / (B - A)) + b * ((t - A) / (B - A)) := by
    intro a b
    field_simp
  cases hdb : e.mDB with
  | false =>
    simpa [startValue, hdb] using key (vAt e.mEnv i) (vAt e.mEnv (i + 1))
  | true =>
    simpa [startValue, hdb] using
      congrArg E (key (L (vAt e.mEnv i)) (L (vAt e.mEnv (i + 1))))

/-- Claim C3: for every envelope (with its sorted point sequence) and
every time `t`, `GetValue` returns the default value when the point set
is empty, the first point's stored value exactly when `t` is at or
before the first point's time, the last point's stored value exactly
when `t` is at or after the last point's time, and otherwise the
interpolation between the bracketing points at fractional position
`f = (t - lo.time)/(hi.time - lo.time)`, linear in Linear mode and on
`log10`-transformed values (raised back via `10^x`) in Logarithmic mode
— as captured verbatim from the spec by `specGetValue`; this holds for
every state of the search-hint cache, and for the absolute-time
`GetValue` with the time translated by the envelope's offset. -/
theorem claim_C3 (L E : ℚ → ℚ) (e : Envelope) (g : ℤ) (t : ℚ)
    (hs : strictSorted e.mEnv) :
    e.GetValueRelative L E g t = specGetValue L E e t ∧
      e.GetValue L E g t = specGetValue L E e (t - e.mOffset) := by
  refine ⟨?_, ?_⟩
  · rw [getValueRelative_eq_valueFormula L E hs g t, valueFormula_eq_spec L E hs t]
  · rw [Envelope.GetValue, getValueRelative_eq_valueFormula L E hs g _,
      valueFormula_eq_spec L E hs _]

/-- A concrete three-point linear envelope used as witness input. -/
def sampleEnv : Envelope :=
  { mDB := false, mMinValue := 0, mMaxValue := 2, mDefaultValue := 1/2,
    mOffset := 0, mTrackLen := 10, mEnv := [⟨0, 0⟩, ⟨5, 1⟩, ⟨10, 0⟩],
    mDragPoint := -1, mDragPointValid := false }

/-- Witness for C3 at a concrete interior sample time. -/
theorem claim_C3_witness :
    strictSorted sampleEnv.mEnv ∧
      (sampleEnv.GetValueRelative id id 0 (5/2) = specGetValue id id sampleEnv (5/2) ∧
        sampleEnv.GetValue id id 0 (5/2) = specGetValue id id sampleEnv (5/2 - sampleEnv.mOffset)) :=
  ⟨by decide, claim_C3 id id sampleEnv 0 (5/2) (by decide)⟩

/-! ## Claim C7: the search-hint cache never affects results -/

/-- One iteration of the `GetValuesRelative` loop emits the same sample
and carries the same state (apart from the hint itself) from two states
that agree on everything except the cache hint. -/
theorem gvrStep_guess_irrel (L E : ℚ → ℚ) {e : Envelope}
    (hs : strictSorted e.mEnv) (tstep t : ℚ) (f : Bool) (tn vs pv : ℚ) (g g' : ℤ) :
    (gvrStep L E e tstep t ⟨f, tn, vs, pv, g⟩).1 =
        (gvrStep L E e tstep t ⟨f, tn, vs, pv, g'⟩).1 ∧
      (gvrStep L E e tstep t ⟨f, tn, vs, pv, g⟩).2.isFirst =
        (gvrStep L E e tstep t ⟨f, tn, vs, pv, g'⟩).2.isFirst ∧
      (gvrStep L E e tstep t ⟨f, tn, vs, pv, g⟩).2.tnext =
        (gvrStep L E e tstep t ⟨f, tn, vs, pv, g'⟩).2.tnext ∧
      (gvrStep L E e tstep t ⟨f, tn, vs, pv, g⟩).2.vstep =
        (gvrStep L E e tstep t ⟨f, tn, vs, pv, g'⟩).2.vstep ∧
      (gvrStep L E e tstep t ⟨f, tn, vs, pv, g⟩).2.prev =
        (gvrStep L E e tstep t ⟨f, tn, vs, pv, g'⟩).2.prev := by
  rw [gvrStep, gvrStep]
  by_cases hlen : e.mEnv.length = 0
  · simp [hlen]
  simp only [hlen, if_false, if_neg hlen]
  by_cases h0 : t ≤ tAt e.mEnv 0
  · simp [h0]
  simp only [if_neg h0]
  by_cases h1 : tAt e.mEnv (e.mEnv.length - 1) ≤ t
  · simp [h1]
  simp only [if_neg h1]
  by_cases h2 : (GVState.mk f tn vs pv g).isFirst = true ∨ (GVState.mk f tn vs pv g).tnext < t
  · have h2' : (GVState.mk f tn vs pv g').isFirst = true ∨
        (GVState.mk f tn vs pv g').tnext < t := h2
    simp only [if_pos h2, if_pos h2']
    have hbr := binarySearch_guess_irrel hs g g' t
    simp [hbr]
  · have h2' : ¬((GVState.mk f tn vs pv g').isFirst = true ∨
        (GVState.mk f tn vs pv g').tnext < t) := h2
    simp only [if_neg h2, if_neg h2']
    simp

/-- The `GetValuesRelative` loop emits the same samples from two states
that agree on everything except the cache hint. -/
theorem gvrLoop_guess_irrel (L E : ℚ → ℚ) {e : Envelope}
    (hs : strictSorted e.mEnv) (tstep : ℚ) :
    ∀ (n : ℕ) (t : ℚ) (f : Bool) (tn vs pv : ℚ) (g g' : ℤ),
      gvrLoop L E e tstep n t ⟨f, tn, vs, pv, g⟩ =
        gvrLoop L E e tstep n t ⟨f, tn, vs, pv, g'⟩
  | 0, _, _, _, _, _, _, _ => rfl
  | n + 1, t, f, tn, vs, pv, g, g' => by
    obtain ⟨he, h1, h2, h3, h4⟩ := gvrStep_guess_irrel L E hs tstep t f tn vs pv g g'
    rw [gvrLoop, gvrLoop, he]
    refine congrArg _ ?_
    set s1 := (gvrStep L E e tstep t ⟨f, tn, vs, pv, g⟩).2 with hs1
    set s2 := (gvrStep L E e tstep t ⟨f, tn, vs, pv, g'⟩).2 with hs2
    have e1 : s1 = ⟨s1.isFirst, s1.tnext, s1.vstep, s1.prev, s1.guess⟩ := rfl
    have e2 : s2 = ⟨s1.isFirst, s1.tnext, s1.vstep, s1.prev, s2.guess⟩ := by
      rw [h1, h2, h3, h4]
    rw [e1, e2]
    exact gvrLoop_guess_irrel L E hs tstep n (t + tstep)
      s1.isFirst s1.tnext s1.vstep s1.prev s1.guess s2.guess

/-- Claim C7: the `searchHint` cache never affects observable results:
for a (sorted) point sequence the bracket returned by
`BinarySearchForTime` is the same for every cached hint (valid or
stale), it satisfies `points[lo].time ≤ t < points[hi].time` with the
sentinels `-1` and `size` at the ends, and two runs of `GetValues`
differing only in the cache state fill identical buffers. -/
theorem claim_C7 (L E : ℚ → ℚ) (e : Envelope) (g g' : ℤ) (t t0 tstep : ℚ) (n : ℕ)
    (hs : strictSorted e.mEnv) :
    (binarySearchForTime e.mEnv g t).1 = (binarySearchForTime e.mEnv g' t).1 ∧
      isBracket e.mEnv t (binarySearchForTime e.mEnv g t).1.1
        (binarySearchForTime e.mEnv g t).1.2 ∧
      e.GetValuesRelative L E g n t0 tstep = e.GetValuesRelative L E g' n t0 tstep :=
  ⟨binarySearch_guess_irrel hs g g' t, binarySearch_isBracket e.mEnv g t,
    gvrLoop_guess_irrel L E hs tstep n t0 true 0 0 0 g g'⟩

/-- Witness for C7: a valid hint, a stale hint and an out-of-range hint
all resolve the same bracket on the sample envelope. -/
theorem claim_C7_witness :
    strictSorted sampleEnv.mEnv ∧
      ((binarySearchForTime sampleEnv.mEnv 7 6 ).1 = (binarySearchForTime sampleEnv.mEnv (-1) 6).1 ∧
        isBracket sampleEnv.mEnv 6 (binarySearchForTime sampleEnv.mEnv 7 6).1.1
          (binarySearchForTime sampleEnv.mEnv 7 6).1.2 ∧
        sampleEnv.GetValuesRelative id id 7 4 0 3 = sampleEnv.GetValuesRelative id id (-1) 4 0 3) :=
  ⟨by decide, claim_C7 id id sampleEnv 7 (-1) 6 0 3 4 (by decide)⟩

/-! ## Claim C10: `NextPointAfter` -/

/-- Claim C10: for every (sorted) envelope and time `t`, if some point
has time strictly greater than `t` then `NextPointAfter t` is the
smallest such point time; otherwise (no point after `t`, including the
empty envelope) it returns `t` itself. -/
theorem claim_C10 (e : Envelope) (g : ℤ) (t : ℚ) (hs : strictSorted e.mEnv) :
    ((∃ p ∈ e.mEnv, t < p.GetT) →
        e.NextPointAfter g t ∈ timesOf e.mEnv ∧ t < e.NextPointAfter g t ∧
          ∀ p ∈ e.mEnv, t < p.GetT → e.NextPointAfter g t ≤ p.GetT) ∧
      ((∀ p ∈ e.mEnv, p.GetT ≤ t) → e.NextPointAfter g t = t) := by
  have hbs := binarySearch_eq_canon hs g t
  have hcanle := canonIdx_le_length e.mEnv t
  rw [Envelope.NextPointAfter]
  simp only [hbs]
  constructor
  · rintro ⟨p, hp, hpt⟩
    obtain ⟨j, hj, hpj⟩ := List.mem_iff_getElem.mp hp
    have hjt : t < tAt e.mEnv j := by
      rw [tAt_eq_getElem e.mEnv j hj, hpj]
      exact hpt
    have hcj : canonIdx e.mEnv t ≤ j := canonIdx_lt hjt
    have hclen : canonIdx e.mEnv t < e.mEnv.length := lt_of_le_of_lt hcj hj
    have hcond : ¬ ((e.mEnv.length : ℤ) ≤ ((canonIdx e.mEnv t : ℤ))) := by omega
    simp only [Int.toNat_natCast, if_neg hcond]
    refine ⟨?_, canonIdx_spec_gt e.mEnv t hclen, ?_⟩
    · rw [tAt_eq_getElem e.mEnv _ hclen]
      exact List.mem_map_of_mem EnvPoint.GetT (List.getElem_mem hclen)
    · intro q hq hqt
      obtain ⟨k, hk, hqk⟩ := List.mem_iff_getElem.mp hq
      have hkt : t < tAt e.mEnv k := by
        rw [tAt_eq_getElem e.mEnv k hk, hqk]
        exact hqt
      have : canonIdx e.mEnv t ≤ k := canonIdx_lt hkt
      calc tAt e.mEnv (canonIdx e.mEnv t) ≤ tAt e.mEnv k := strictSorted_tAt_le hs this hk
        _ = q.GetT := by rw [tAt_eq_getElem e.mEnv k hk, hqk]
  · intro hall
    have hclen : e.mEnv.length ≤ canonIdx e.mEnv t := by
      by_contra hc
      push_neg at hc
      have h1 := canonIdx_spec_gt e.mEnv t hc
      have h2 : tAt e.mEnv (canonIdx e.mEnv t) ≤ t := by
        rw [tAt_eq_getElem e.mEnv _ hc]
        exact hall _ (List.getElem_mem hc)
      linarith
    have hcond : (e.mEnv.length : ℤ) ≤ ((canonIdx e.mEnv t : ℤ)) := by omega
    simp only [if_pos hcond]

/-- Witness for C10 on the sample envelope at `t = 1`. -/
theorem claim_C10_witness :
    strictSorted sampleEnv.mEnv ∧
      (((∃ p ∈ sampleEnv.mEnv, (1:ℚ) < p.GetT) →
          sampleEnv.NextPointAfter 2 1 ∈ timesOf sampleEnv.mEnv ∧
            (1:ℚ) < sampleEnv.NextPointAfter 2 1 ∧
            ∀ p ∈ sampleEnv.mEnv, (1:ℚ) < p.GetT → sampleEnv.NextPointAfter 2 1 ≤ p.GetT) ∧
        ((∀ p ∈ sampleEnv.mEnv, p.GetT ≤ (1:ℚ)) → sampleEnv.NextPointAfter 2 1 = 1)) :=
  ⟨by decide, claim_C10 sampleEnv 2 1 (by decide)⟩

/-! ## Claim C9: `Reassign` -/

/-- Claim C9: `Reassign(t, value)` reports not-found via its `-1`
sentinel and leaves the envelope unchanged when no point's time equals
`t - offset` exactly; otherwise it overwrites exactly the matching
point's value (clamped) and returns `0`.  It is a total function — no
error is raised, in particular on the empty envelope. -/
theorem claim_C9 (e : Envelope) (t v : ℚ) (hs : strictSorted e.mEnv) :
    ((∀ p ∈ e.mEnv, p.GetT ≠ t - e.mOffset) → e.Reassign t v = (e, -1)) ∧
      (∀ j, (hj : j < e.mEnv.length) → tAt e.mEnv j = t - e.mOffset →
        e.Reassign t v =
          ({ e with mEnv := e.mEnv.set j ((e.mEnv.getD j default).SetVal e v) }, 0)) := by
  set w := t - e.mOffset with hw
  constructor
  · intro hnone
    rw [Envelope.Reassign]
    by_cases hlen : e.mEnv.length = 0
    · simp [hlen]
    · simp only [hlen, if_false, if_neg hlen]
      have hfail : e.mEnv.length ≤ scanIndex e.mEnv w ∨ w < tAt e.mEnv (scanIndex e.mEnv w) := by
        by_contra hc
        push_neg at hc
        obtain ⟨h1, h2⟩ := hc
        have h3 := scanIndex_spec_ge e.mEnv w h1
        have h4 : tAt e.mEnv (scanIndex e.mEnv w) = w := le_antisymm (le_of_not_lt (by linarith)) h3
        have h5 := hnone e.mEnv[scanIndex e.mEnv w] (List.getElem_mem h1)
        rw [← tAt_eq_getElem e.mEnv _ h1] at h5
        exact h5 h4
      simp only [if_pos hfail]
  · intro j hj hjw
    rw [Envelope.Reassign]
    have hlen : ¬ e.mEnv.length = 0 := by omega
    simp only [hlen, if_false, if_neg hlen]
    have hji : j = scanIndex e.mEnv w := by
      have hnotlt : ¬ j < scanIndex e.mEnv w := fun hc =>
        absurd hjw (ne_of_lt (scanIndex_spec_lt e.mEnv w hc))
      have hnotgt : ¬ scanIndex e.mEnv w < j := by
        intro hc
        have hsl : scanIndex e.mEnv w < e.mEnv.length := lt_trans hc hj
        have h1 := scanIndex_spec_ge e.mEnv w hsl
        have h2 : tAt e.mEnv (scanIndex e.mEnv w) < tAt e.mEnv j :=
          strictSorted_tAt_lt hs hc hj
        rw [hjw] at h2
        linarith
      omega
    simp only [← hji]
    have hok : ¬ (e.mEnv.length ≤ j ∨ t - e.mOffset < tAt e.mEnv j) := by
      push_neg
      rw [hjw, ← hw]
      exact ⟨hj, le_refl w⟩
    rw [if_neg hok]

/-- Witness for C9: reassigning at an existing point time on the sample
envelope. -/
theorem claim_C9_witness :
    strictSorted sampleEnv.mEnv ∧
      (((∀ p ∈ sampleEnv.mEnv, p.GetT ≠ (5:ℚ) - sampleEnv.mOffset) →
          sampleEnv.Reassign 5 (3/2) = (sampleEnv, -1)) ∧
        (∀ j, (hj : j < sampleEnv.mEnv.length) → tAt sampleEnv.mEnv j = (5:ℚ) - sampleEnv.mOffset →
          sampleEnv.Reassign 5 (3/2) =
            ({ sampleEnv with
                mEnv := sampleEnv.mEnv.set j
                  ((sampleEnv.mEnv.getD j default).SetVal sampleEnv (3/2)) }, 0))) :=
  ⟨by decide, claim_C9 sampleEnv 5 (3/2) (by decide)⟩

/-! ## Claim C4: antisymmetry and flat case of the integral -/

/-- Claim C4: for every envelope (any point set, any interpolation
mode, any model of `log`/`exp`) and all times, `Integral(t1, t0)`
equals `-Integral(t0, t1)` exactly, so in particular
`Integral(t, t) = 0`; for an empty point set
`Integral(t0, t1) = (t1 - t0) * defaultValue`.  The same antisymmetry
holds for `IntegralOfInverse` (cited alongside in the claim). -/
theorem claim_C4 (lnQ expQ : ℚ → ℚ) (e : Envelope) (g : ℤ) (t0 t1 t : ℚ) :
    e.Integral lnQ expQ g t1 t0 = -(e.Integral lnQ expQ g t0 t1) ∧
      e.Integral lnQ expQ g t t = 0 ∧
      (e.mEnv = [] → e.Integral lnQ expQ g t0 t1 = (t1 - t0) * e.mDefaultValue) ∧
      e.IntegralOfInverse lnQ expQ g t1 t0 = -(e.IntegralOfInverse lnQ expQ g t0 t1) := by
  refine ⟨?_, by simp [Envelope.Integral], ?_, ?_⟩
  · rcases lt_trichotomy t0 t1 with h | h | h
    · rw [Envelope.Integral, Envelope.Integral,
        if_neg (ne_of_gt h), if_pos h, if_neg (ne_of_lt h), if_neg (lt_asymm h)]
    · subst h
      simp [Envelope.Integral]
    · rw [Envelope.Integral, Envelope.Integral,
        if_neg (ne_of_lt h), if_neg (lt_asymm h), if_neg (ne_of_gt h), if_pos h, neg_neg]
  · intro hempty
    have hgo : ∀ a b : ℚ, integralGo lnQ expQ e g a b = (b - a) * e.mDefaultValue := by
      intro a b
      rw [integralGo]
      simp [hempty]
    rcases lt_trichotomy t0 t1 with h | h | h
    · rw [Envelope.Integral, if_neg (ne_of_lt h), if_neg (lt_asymm h), hgo]
    · subst h
      simp [Envelope.Integral]
    · rw [Envelope.Integral, if_neg (ne_of_gt h), if_pos h, hgo]
      ring
  · rcases lt_trichotomy t0 t1 with h | h | h
    · rw [Envelope.IntegralOfInverse, Envelope.IntegralOfInverse,
        if_neg (ne_of_gt h), if_pos h, if_neg (ne_of_lt h), if_neg (lt_asymm h)]
    · subst h
      simp [Envelope.IntegralOfInverse]
    · rw [Envelope.IntegralOfInverse, Envelope.IntegralOfInverse,
        if_neg (ne_of_lt h), if_neg (lt_asymm h), if_neg (ne_of_gt h), if_pos h, neg_neg]

/-- Witness for C4 on a flat (empty) envelope. -/
theorem claim_C4_witness :
    (Envelope.Flatten sampleEnv (1/2)).mEnv = [] ∧
      ((Envelope.Flatten sampleEnv (1/2)).Integral id id 0 100 0 =
          -((Envelope.Flatten sampleEnv (1/2)).Integral id id 0 0 100) ∧
        (Envelope.Flatten sampleEnv (1/2)).Integral id id 0 7 7 = 0 ∧
        ((Envelope.Flatten sampleEnv (1/2)).mEnv = [] →
          (Envelope.Flatten sampleEnv (1/2)).Integral id id 0 0 100 =
            (100 - 0) * (Envelope.Flatten sampleEnv (1/2)).mDefaultValue) ∧
        (Envelope.Flatten sampleEnv (1/2)).IntegralOfInverse id id 0 100 0 =
          -((Envelope.Flatten sampleEnv (1/2)).IntegralOfInverse id id 0 0 100)) :=
  ⟨by decide, claim_C4 id id (Envelope.Flatten sampleEnv (1/2)) 0 0 100 7⟩

/-! ## Sortedness under the structural list operations -/

theorem getElem_idx_congr {α : Type} {l : List α} {i j : ℕ} (h : i = j)
    (hi : i < l.length) : l[i] = l[j] := by
  subst h
  rfl

/-- Replacing a point by one with the same time leaves the time sequence
unchanged. -/
theorem timesOf_set_same_time {env : List EnvPoint} {j : ℕ} {y : EnvPoint}
    (hj : j < env.length) (hy : y.GetT = tAt env j) :
    timesOf (env.set j y) = timesOf env := by
  apply List.ext_getElem
  · simp [timesOf]
  · intro i h1 h2
    simp only [timesOf, List.getElem_map, List.getElem_set]
    by_cases hij : j = i
    · subst hij
      rw [if_pos rfl, hy, tAt_eq_getElem env j hj]
    · rw [if_neg hij]

theorem strictSorted_set_same_time {env : List EnvPoint} {j : ℕ} {y : EnvPoint}
    (hs : strictSorted env) (hj : j < env.length) (hy : y.GetT = tAt env j) :
    strictSorted (env.set j y) := by
  rw [strictSorted, timesOf_set_same_time hj hy]
  exact hs

theorem strictSorted_eraseIdx {env : List EnvPoint} (hs : strictSorted env) (i : ℕ) :
    strictSorted (env.eraseIdx i) := by
  rw [strictSorted_iff_pairwise] at hs ⊢
  exact hs.sublist (List.eraseIdx_sublist env i)

/-- Inserting a point at a position bounded by strictly smaller times on
the left and a strictly larger time on the right keeps the sequence
strictly sorted. -/
theorem strictSorted_insertIdx {env : List EnvPoint} (hs : strictSorted env)
    {k : ℕ} {q : EnvPoint} (hk : k ≤ env.length)
    (hb : ∀ j, j < k → tAt env j < q.GetT)
    (ha : ∀ _ : k < env.length, q.GetT < tAt env k) :
    strictSorted (env.insertIdx k q) := by
  have hlen : (env.insertIdx k q).length = env.length + 1 :=
    List.length_insertIdx k env hk
  have hget : ∀ (m : ℕ), m < env.length + 1 →
      tAt (env.insertIdx k q) m =
        if m < k then tAt env m else if m = k then q.GetT else tAt env (m - 1) := by
    intro m hm
    rw [tAt_eq_getElem (env.insertIdx k q) m (by omega)]
    by_cases hlt : m < k
    · rw [if_pos hlt, List.getElem_insertIdx_of_lt env q k m hlt (by omega),
        ← tAt_eq_getElem env m (by omega)]
    · rw [if_neg hlt]
      by_cases heq : m = k
      · subst heq
        rw [if_pos rfl, List.getElem_insertIdx_self env q m hk]
      · rw [if_neg heq]
        have hm1 : m = k + (m - k - 1) + 1 := by omega
        have h2 : k + (m - k - 1) < env.length := by omega
        rw [getElem_idx_congr hm1, List.getElem_insertIdx_add_succ env q k (m - k - 1) h2,
          ← tAt_eq_getElem env _ h2]
        congr 1
        omega
  rw [strictSorted_iff_pairwise, List.pairwise_iff_getElem]
  intro i j hi hj hij
  rw [hlen] at hi hj
  rw [← tAt_eq_getElem (env.insertIdx k q) i (by omega),
    ← tAt_eq_getElem (env.insertIdx k q) j (by omega), hget i hi, hget j hj]
  by_cases hik : i < k
  · rw [if_pos hik]
    by_cases hjk : j < k
    · rw [if_pos hjk]
      exact strictSorted_tAt_lt hs hij (by omega)
    · rw [if_neg hjk]
      by_cases hjeq : j = k
      · rw [if_pos hjeq]
        exact hb i (by omega)
      · rw [if_neg hjeq]
        rcases Nat.lt_or_ge i (j - 1) with hlt | hge
        · exact strictSorted_tAt_lt hs hlt (by omega)
        · exact absurd hik (by omega)
  · rw [if_neg hik]
    by_cases hieq : i = k
    · rw [if_pos hieq]
      rw [if_neg (by omega : ¬ j < k), if_neg (by omega : ¬ j = k)]
      have h1 := ha (by omega)
      rcases Nat.lt_or_ge k (j - 1) with hlt | hge
      · exact lt_trans h1 (strictSorted_tAt_lt hs hlt (by omega))
      · have hkj : k = j - 1 := by omega
        rw [← hkj]
        exact h1
    · rw [if_neg hieq]
      rw [if_neg (by omega : ¬ j < k), if_neg (by omega : ¬ j = k)]
      exact strictSorted_tAt_lt hs (show i - 1 < j - 1 by omega) (by omega)

/-! ## Claim C1: ordering under the mutators -/

theorem SetVal_GetT (p : EnvPoint) (e : Envelope) (v : ℚ) :
    (p.SetVal e v).GetT = p.GetT := rfl

theorem mkPoint_GetT (e : Envelope) (t v : ℚ) : (e.mkPoint t v).GetT = t := rfl

theorem timesOf_map_of_GetT {env : List EnvPoint} {f : EnvPoint → EnvPoint}
    (hf : ∀ p, (f p).GetT = p.GetT) : timesOf (env.map f) = timesOf env := by
  rw [timesOf, timesOf, List.map_map]
  exact List.map_congr_left (fun p _ => hf p)

/-- `InsertOrReplaceRelative` preserves the strict ordering of the point
sequence (overwrite keeps all times; an insertion lands strictly
between its neighbours). -/
theorem insertOrReplace_strictSorted (e : Envelope) (w v : ℚ)
    (hs : strictSorted e.mEnv) :
    strictSorted ((e.InsertOrReplaceRelative w v).1).mEnv := by
  rw [Envelope.InsertOrReplaceRelative]
  by_cases h1 : 0 < e.mEnv.length ∧ w < 0
  · simpa [h1] using hs
  simp only [if_neg h1]
  by_cases h2 : 1 < e.mEnv.length ∧ e.mTrackLen < w
  · simpa [h2] using hs
  simp only [if_neg h2]
  set w1 := if w < 0 then (0:ℚ) else w with hw1
  set w2 := if 1 < e.mEnv.length ∧ e.mTrackLen < w1 then e.mTrackLen else w1 with hw2
  set k := scanIndex e.mEnv w2 with hk
  by_cases hm : k < e.mEnv.length ∧ w2 = tAt e.mEnv k
  · simp only [if_pos hm]
    exact strictSorted_set_same_time hs hm.1 (by rw [SetVal_GetT, tAt])
  · simp only [if_neg hm]
    refine strictSorted_insertIdx hs (scanIndex_le_length e.mEnv w2) ?_ ?_
    · intro j hj
      rw [mkPoint_GetT]
      exact scanIndex_spec_lt e.mEnv w2 hj
    · intro hklen
      rw [mkPoint_GetT]
      have hle := scanIndex_spec_ge e.mEnv w2 hklen
      have hne : w2 ≠ tAt e.mEnv k := fun hc => hm ⟨hklen, hc⟩
      exact lt_of_le_of_ne hle hne

/-- `Reassign` preserves the strict ordering (it changes only a value). -/
theorem reassign_strictSorted (e : Envelope) (w v : ℚ) (hs : strictSorted e.mEnv) :
    strictSorted ((e.Reassign w v).1).mEnv := by
  rw [Envelope.Reassign]
  by_cases h1 : e.mEnv.length = 0
  · simpa [h1] using hs
  simp only [if_neg h1]
  by_cases h2 : e.mEnv.length ≤ scanIndex e.mEnv (w - e.mOffset) ∨
      w - e.mOffset < tAt e.mEnv (scanIndex e.mEnv (w - e.mOffset))
  · simpa [h2] using hs
  · simp only [if_neg h2]
    push_neg at h2
    exact strictSorted_set_same_time hs h2.1 (by rw [SetVal_GetT, tAt])

/-- Claim C1 (amended): the strict-ascending-by-time invariant is
preserved by `InsertOrReplaceRelative` (for every time and value,
whether it overwrites or inserts), by `Delete`, `Reassign`, `Flatten`,
`SetRange` and `RescaleValues` — but not by every public operation:
`AddPointAtEnd` (used by copy-range construction and `SetTrackLen`) may
retain two points at exactly the same time, see the counterexample. -/
theorem claim_C1 (e : Envelope) (hs : strictSorted e.mEnv)
    (w v minV maxV : ℚ) (i : ℕ) :
    strictSorted ((e.InsertOrReplaceRelative w v).1).mEnv ∧
      strictSorted ((e.Reassign w v).1).mEnv ∧
      strictSorted (e.Delete i).mEnv ∧
      strictSorted (e.Flatten v).mEnv ∧
      strictSorted (e.SetRange minV maxV).mEnv ∧
      strictSorted (e.RescaleValues minV maxV).mEnv := by
  refine ⟨insertOrReplace_strictSorted e w v hs, reassign_strictSorted e w v hs,
    strictSorted_eraseIdx hs i, ?_, ?_, ?_⟩
  · simp [Envelope.Flatten, strictSorted, timesOf]
  · rw [Envelope.SetRange, strictSorted]
    simp only
    rw [timesOf_map_of_GetT (fun p => SetVal_GetT p _ _)]
    exact hs
  · rw [Envelope.RescaleValues, strictSorted]
    simp only
    rw [timesOf_map_of_GetT (fun p => SetVal_GetT p _ _)]
    exact hs

/-- Witness for C1 on the sample envelope. -/
theorem claim_C1_witness :
    strictSorted sampleEnv.mEnv ∧
      (strictSorted ((sampleEnv.InsertOrReplaceRelative 7 (3/2)).1).mEnv ∧
        strictSorted ((sampleEnv.Reassign 7 (3/2)).1).mEnv ∧
        strictSorted (sampleEnv.Delete 1).mEnv ∧
        strictSorted (sampleEnv.Flatten (3/2)).mEnv ∧
        strictSorted (sampleEnv.SetRange 0 1).mEnv ∧
        strictSorted (sampleEnv.RescaleValues 0 1).mEnv) :=
  ⟨by decide, claim_C1 sampleEnv (by decide) 7 (3/2) 0 1 1⟩

/-- Counterexample to C1 as stated: `AddPointAtEnd`, a public mutator,
called twice at time `5` on an initially empty (hence sorted) envelope
retains two points at exactly the same time, so the resulting point
sequence is not strictly ascending. -/
theorem claim_C1_counterexample :
    strictSorted (sampleEnv.Flatten (1/2)).mEnv ∧
      (((sampleEnv.Flatten (1/2)).AddPointAtEnd 5 1).AddPointAtEnd 5 2).mEnv =
        [⟨5, 1⟩, ⟨5, 2⟩] ∧
      ¬ strictSorted ((((sampleEnv.Flatten (1/2)).AddPointAtEnd 5 1).AddPointAtEnd 5 2)).mEnv := by
  refine ⟨by decide, by decide, by decide⟩

/-! ## Claim C2: `InsertOrReplaceRelative` -/

theorem tAt_set_self {l : List EnvPoint} {j : ℕ} (hj : j < l.length) (y : EnvPoint) :
    tAt (l.set j y) j = y.GetT := by
  rw [tAt_eq_getElem _ j (by simpa using hj), List.getElem_set_self]

theorem vAt_set_self {l : List EnvPoint} {j : ℕ} (hj : j < l.length) (y : EnvPoint) :
    vAt (l.set j y) j = y.GetVal := by
  rw [vAt_eq_getElem _ j (by simpa using hj), List.getElem_set_self]

/-- Strictly sorted times are injective in the index. -/
theorem tAt_inj {env : List EnvPoint} (hs : strictSorted env) {i j : ℕ}
    (hi : i < env.length) (hj : j < env.length) (hij : i ≠ j) :
    tAt env i ≠ tAt env j := by
  rcases Nat.lt_or_ge i j with h | h
  · exact ne_of_lt (strictSorted_tAt_lt hs h hj)
  · exact ne_of_gt (strictSorted_tAt_lt hs (by omega) hi)

/-- The non-early path of `InsertOrReplaceRelative` with an exact time
match: overwrite in place, return the matching index. -/
theorem insertOrReplace_match (e : Envelope) (t v : ℚ) (hs : strictSorted e.mEnv)
    (h0 : 0 ≤ t) (hL : t ≤ e.mTrackLen ∨ e.mEnv.length ≤ 1)
    {j : ℕ} (hj : j < e.mEnv.length) (ht : tAt e.mEnv j = t) :
    e.InsertOrReplaceRelative t v =
      ({ e with mEnv := e.mEnv.set j ((e.mEnv.getD j default).SetVal e v) }, (j : ℤ)) := by
  rw [Envelope.InsertOrReplaceRelative]
  have h1 : ¬ (0 < e.mEnv.length ∧ t < 0) := by
    rintro ⟨-, hc⟩
    linarith
  have h2 : ¬ (1 < e.mEnv.length ∧ e.mTrackLen < t) := by
    rintro ⟨hlen, hc⟩
    rcases hL with h | h
    · linarith
    · omega
  rw [if_neg h1, if_neg h2]
  simp only [if_neg (not_lt.mpr h0), if_neg h2]
  have hji : j = scanIndex e.mEnv t := by
    have hnotlt : ¬ j < scanIndex e.mEnv t := fun hc =>
      absurd ht (ne_of_lt (scanIndex_spec_lt e.mEnv t hc))
    have hnotgt : ¬ scanIndex e.mEnv t < j := by
      intro hc
      have hsl : scanIndex e.mEnv t < e.mEnv.length := lt_trans hc hj
      have hge := scanIndex_spec_ge e.mEnv t hsl
      have hlt := strictSorted_tAt_lt hs hc hj
      rw [ht] at hlt
      linarith
    omega
  rw [← hji, if_pos ⟨hj, ht.symm⟩]

/-- The non-early path of `InsertOrReplaceRelative` with no exact time
match: insert at the scan position, return it. -/
theorem insertOrReplace_insert (e : Envelope) (t v : ℚ)
    (h0 : 0 ≤ t) (hL : t ≤ e.mTrackLen ∨ e.mEnv.length ≤ 1)
    (hnone : ∀ p ∈ e.mEnv, p.GetT ≠ t) :
    e.InsertOrReplaceRelative t v =
      ({ e with mEnv := e.mEnv.insertIdx (scanIndex e.mEnv t) (e.mkPoint t v) },
        (scanIndex e.mEnv t : ℤ)) := by
  rw [Envelope.InsertOrReplaceRelative]
  have h1 : ¬ (0 < e.mEnv.length ∧ t < 0) := by
    rintro ⟨-, hc⟩
    linarith
  have h2 : ¬ (1 < e.mEnv.length ∧ e.mTrackLen < t) := by
    rintro ⟨hlen, hc⟩
    rcases hL with h | h
    · linarith
    · omega
  rw [if_neg h1, if_neg h2]
  simp only [if_neg (not_lt.mpr h0), if_neg h2]
  have hnm : ¬ (scanIndex e.mEnv t < e.mEnv.length ∧ t = tAt e.mEnv (scanIndex e.mEnv t)) := by
    rintro ⟨hlt, heq⟩
    exact hnone e.mEnv[scanIndex e.mEnv t] (List.getElem_mem hlt)
      (by rw [← tAt_eq_getElem e.mEnv _ hlt, ← heq])
  rw [if_neg hnm]

/-- The fields other than the point sequence are untouched by
`InsertOrReplaceRelative`. -/
theorem insertOrReplace_fields (e : Envelope) (t v : ℚ) :
    ((e.InsertOrReplaceRelative t v).1).mDB = e.mDB ∧
      ((e.InsertOrReplaceRelative t v).1).mMinValue = e.mMinValue ∧
      ((e.InsertOrReplaceRelative t v).1).mMaxValue = e.mMaxValue ∧
      ((e.InsertOrReplaceRelative t v).1).mTrackLen = e.mTrackLen := by
  rw [Envelope.InsertOrReplaceRelative]
  dsimp only
  split_ifs <;> exact ⟨rfl, rfl, rfl, rfl⟩

/-- After `InsertOrReplaceRelative` at an in-range time, some index
holds a point at exactly that time. -/
theorem insertOrReplace_creates (e : Envelope) (t v : ℚ) (hs : strictSorted e.mEnv)
    (h0 : 0 ≤ t) (hL : t ≤ e.mTrackLen ∨ e.mEnv.length ≤ 1) :
    ∃ j, j < ((e.InsertOrReplaceRelative t v).1).mEnv.length ∧
      tAt ((e.InsertOrReplaceRelative t v).1).mEnv j = t := by
  by_cases hm : ∃ j, j < e.mEnv.length ∧ tAt e.mEnv j = t
  · obtain ⟨j, hj, ht⟩ := hm
    rw [insertOrReplace_match e t v hs h0 hL hj ht]
    refine ⟨j, by simpa using hj, ?_⟩
    rw [tAt_set_self hj, SetVal_GetT]
    rw [tAt] at ht
    exact ht
  · push_neg at hm
    have hnone : ∀ p ∈ e.mEnv, p.GetT ≠ t := by
      intro p hp
      obtain ⟨k, hk, hpk⟩ := List.mem_iff_getElem.mp hp
      have := hm k hk
      rw [tAt_eq_getElem e.mEnv k hk, hpk] at this
      exact this
    rw [insertOrReplace_insert e t v h0 hL hnone]
    have hsc := scanIndex_le_length e.mEnv t
    refine ⟨scanIndex e.mEnv t, ?_, ?_⟩
    · simp only [List.length_insertIdx _ _ hsc]
      omega
    · rw [tAt_eq_getElem _ _ (by rw [List.length_insertIdx _ _ hsc]; omega),
        List.getElem_insertIdx_self e.mEnv _ _ hsc]
      rfl

/-- Claim C2 (amended): `InsertOrReplaceRelative(t, value)` does **not**
first clamp `t` into `[0, spanLength]`.  Actual behavior: on a nonempty
envelope a negative `t` returns index `0` without modifying anything; on
an envelope with more than one point a `t` beyond `spanLength` returns
the last index without modifying anything; only an empty envelope clamps
a negative `t` up to `0`, and no clamping to `spanLength` ever happens
(with at most one point, a `t` beyond the span is inserted unclamped).
On the remaining path the claim's description holds: an exact time match
overwrites that point's value (clamped) in place and returns its index,
otherwise a new point (with clamped value) is inserted preserving the
strict sort order and its index is returned; inserting twice at the same
in-range time leaves exactly one point at that time holding the second
value. -/
theorem claim_C2 (e : Envelope) (t v v2 : ℚ) (hs : strictSorted e.mEnv) :
    (e.mEnv ≠ [] → t < 0 → e.InsertOrReplaceRelative t v = (e, 0)) ∧
      (0 ≤ t → 1 < e.mEnv.length → e.mTrackLen < t →
        e.InsertOrReplaceRelative t v = (e, (e.mEnv.length : ℤ) - 1)) ∧
      (e.mEnv = [] → t < 0 →
        e.InsertOrReplaceRelative t v = ({ e with mEnv := [e.mkPoint 0 v] }, 0)) ∧
      (0 ≤ t → (t ≤ e.mTrackLen ∨ e.mEnv.length ≤ 1) →
        ∀ j, j < e.mEnv.length → tAt e.mEnv j = t →
          e.InsertOrReplaceRelative t v =
            ({ e with mEnv := e.mEnv.set j ((e.mEnv.getD j default).SetVal e v) }, (j : ℤ)) ∧
          ((e.InsertOrReplaceRelative t v).1).mEnv.length = e.mEnv.length) ∧
      (0 ≤ t → (t ≤ e.mTrackLen ∨ e.mEnv.length ≤ 1) →
        (∀ p ∈ e.mEnv, p.GetT ≠ t) →
          e.InsertOrReplaceRelative t v =
            ({ e with mEnv := e.mEnv.insertIdx (scanIndex e.mEnv t) (e.mkPoint t v) },
              (scanIndex e.mEnv t : ℤ)) ∧
          ((e.InsertOrReplaceRelative t v).1).mEnv.length = e.mEnv.length + 1 ∧
          strictSorted ((e.InsertOrReplaceRelative t v).1).mEnv ∧
          (∀ p, p.GetT ≠ t → (p ∈ ((e.InsertOrReplaceRelative t v).1).mEnv ↔ p ∈ e.mEnv))) ∧
      (0 ≤ t → t ≤ e.mTrackLen →
        ∃ j, j < (((e.InsertOrReplaceRelative t v).1.InsertOrReplaceRelative t v2).1).mEnv.length ∧
          tAt (((e.InsertOrReplaceRelative t v).1.InsertOrReplaceRelative t v2).1).mEnv j = t ∧
          vAt (((e.InsertOrReplaceRelative t v).1.InsertOrReplaceRelative t v2).1).mEnv j =
            e.ClampValue v2 ∧
          (((e.InsertOrReplaceRelative t v).1.InsertOrReplaceRelative t v2).1).mEnv.length =
            ((e.InsertOrReplaceRelative t v).1).mEnv.length ∧
          ∀ k, k < (((e.InsertOrReplaceRelative t v).1.InsertOrReplaceRelative t v2).1).mEnv.length →
            k ≠ j →
            tAt (((e.InsertOrReplaceRelative t v).1.InsertOrReplaceRelative t v2).1).mEnv k ≠ t) := by
  refine ⟨?_, ?_, ?_, ?_, ?_, ?_⟩
  · intro hne hneg
    rw [Envelope.InsertOrReplaceRelative,
      if_pos ⟨List.length_pos.mpr hne, hneg⟩]
  · intro h0 hlen hbig
    rw [Envelope.InsertOrReplaceRelative,
      if_neg (by rintro ⟨-, hc⟩; linarith), if_pos ⟨hlen, hbig⟩]
  · intro hemp hneg
    rw [Envelope.InsertOrReplaceRelative]
    rw [if_neg (by rintro ⟨hc, -⟩; rw [hemp] at hc; simp at hc),
      if_neg (by rintro ⟨hc, -⟩; rw [hemp] at hc; simp at hc)]
    simp only [if_pos hneg, hemp]
    rw [if_neg (by simp), if_neg (by simp)]
    rfl
  · intro h0 hL j hj ht
    have hm := insertOrReplace_match e t v hs h0 hL hj ht
    refine ⟨hm, ?_⟩
    rw [hm]
    simp
  · intro h0 hL hnone
    have hi := insertOrReplace_insert e t v h0 hL hnone
    have hsc := scanIndex_le_length e.mEnv t
    refine ⟨hi, ?_, insertOrReplace_strictSorted e t v hs, ?_⟩
    · rw [hi]
      simpa using List.length_insertIdx _ e.mEnv hsc
    · intro p hp
      rw [hi]
      simp only
      rw [List.mem_insertIdx hsc]
      constructor
      · rintro (hpe | hpe)
        · exact absurd (by rw [hpe, mkPoint_GetT]) hp
        · exact hpe
      · exact Or.inr
  · intro h0 hL
    set e1 := (e.InsertOrReplaceRelative t v).1 with he1
    have hs1 : strictSorted e1.mEnv := insertOrReplace_strictSorted e t v hs
    obtain ⟨hdb, hmin, hmax, htl⟩ := insertOrReplace_fields e t v
    obtain ⟨j1, hj1, ht1⟩ := insertOrReplace_creates e t v hs h0 (Or.inl hL)
    rw [← he1] at hj1 ht1
    have hL1 : t ≤ e1.mTrackLen ∨ e1.mEnv.length ≤ 1 := Or.inl (by rw [htl]; exact hL)
    have hm2 := insertOrReplace_match e1 t v2 hs1 h0 hL1 hj1 ht1
    have hclamp : e1.ClampValue v2 = e.ClampValue v2 := by
      rw [Envelope.ClampValue, Envelope.ClampValue, hmin, hmax]
    refine ⟨j1, ?_, ?_, ?_, ?_, ?_⟩
    · rw [hm2]
      simpa using hj1
    · rw [hm2]
      simp only
      rw [tAt_set_self hj1, SetVal_GetT]
      rw [tAt] at ht1
      exact ht1
    · rw [hm2]
      simp only
      rw [vAt_set_self hj1]
      rw [EnvPoint.SetVal, hclamp]
      rfl
    · rw [hm2]
      simp
    · intro k hk hkj
      rw [hm2] at hk ⊢
      dsimp only at hk
      simp only [List.length_set] at hk
      have hs2 : strictSorted (e1.mEnv.set j1 ((e1.mEnv.getD j1 default).SetVal e1 v2)) :=
        strictSorted_set_same_time hs1 hj1 (by rw [SetVal_GetT, tAt])
      have hne := tAt_inj hs2 (by simpa using hk) (by simpa using hj1) hkj
      intro hc
      apply hne
      rw [hc]
      rw [tAt_set_self hj1, SetVal_GetT]
      rw [tAt] at ht1
      exact ht1.symm

/-- Counterexample to C2 as stated: on an empty envelope with span
length `10`, inserting at `t = 50` stores a point at time `50` — `t` is
not clamped into `[0, spanLength]`. -/
theorem claim_C2_counterexample :
    (sampleEnv.Flatten (1/2)).mEnv = [] ∧
      (((sampleEnv.Flatten (1/2)).InsertOrReplaceRelative 50 1).1).mEnv = [⟨50, 1⟩] ∧
      (sampleEnv.Flatten (1/2)).mTrackLen < 50 :=
  ⟨by decide, by decide, by decide⟩

/-- Witness for C2 on the sample envelope (insert at a fresh time, then
overwrite at the same time). -/
theorem claim_C2_witness :
    strictSorted sampleEnv.mEnv ∧
      ((0:ℚ) ≤ 7 → (7:ℚ) ≤ sampleEnv.mTrackLen →
        ∃ j, j < (((sampleEnv.InsertOrReplaceRelative 7 1).1.InsertOrReplaceRelative 7 (3/2)).1).mEnv.length ∧
          tAt (((sampleEnv.InsertOrReplaceRelative 7 1).1.InsertOrReplaceRelative 7 (3/2)).1).mEnv j = 7 ∧
          vAt (((sampleEnv.InsertOrReplaceRelative 7 1).1.InsertOrReplaceRelative 7 (3/2)).1).mEnv j =
            sampleEnv.ClampValue (3/2) ∧
          (((sampleEnv.InsertOrReplaceRelative 7 1).1.InsertOrReplaceRelative 7 (3/2)).1).mEnv.length =
            ((sampleEnv.InsertOrReplaceRelative 7 1).1).mEnv.length ∧
          ∀ k, k < (((sampleEnv.InsertOrReplaceRelative 7 1).1.InsertOrReplaceRelative 7 (3/2)).1).mEnv.length →
            k ≠ j →
            tAt (((sampleEnv.InsertOrReplaceRelative 7 1).1.InsertOrReplaceRelative 7 (3/2)).1).mEnv k ≠ 7) :=
  ⟨by decide, (claim_C2 sampleEnv 7 1 (3/2) (by decide)).2.2.2.2.2⟩

/-! ## Claim C5: all stored values stay within the value range -/

/-- All stored point values and the default value lie within
`[mMinValue, mMaxValue]`. -/
def valuesInRange (e : Envelope) : Prop :=
  (∀ p ∈ e.mEnv, e.mMinValue ≤ p.GetVal ∧ p.GetVal ≤ e.mMaxValue) ∧
    e.mMinValue ≤ e.mDefaultValue ∧ e.mDefaultValue ≤ e.mMaxValue

instance (e : Envelope) : Decidable (valuesInRange e) :=
  inferInstanceAs (Decidable
    ((∀ p ∈ e.mEnv, e.mMinValue ≤ p.GetVal ∧ p.GetVal ≤ e.mMaxValue) ∧
      e.mMinValue ≤ e.mDefaultValue ∧ e.mDefaultValue ≤ e.mMaxValue))

theorem clampValue_mem (e : Envelope) (hmm : e.mMinValue ≤ e.mMaxValue) (v : ℚ) :
    e.mMinValue ≤ e.ClampValue v ∧ e.ClampValue v ≤ e.mMaxValue := by
  rw [Envelope.ClampValue]
  exact ⟨le_max_left _ _, max_le hmm (min_le_left _ _)⟩

/-- Writing a clamped value into one slot preserves the range invariant
of the point sequence. -/
theorem pointsInRange_set {e : Envelope} (hmm : e.mMinValue ≤ e.mMaxValue)
    (he : ∀ p ∈ e.mEnv, e.mMinValue ≤ p.GetVal ∧ p.GetVal ≤ e.mMaxValue)
    {i : ℕ} {y : EnvPoint} (hy : ∃ z, y.GetVal = e.ClampValue z) :
    ∀ p ∈ e.mEnv.set i y, e.mMinValue ≤ p.GetVal ∧ p.GetVal ≤ e.mMaxValue := by
  intro p hp
  rcases List.mem_or_eq_of_mem_set hp with hmem | rfl
  · exact he p hmem
  · obtain ⟨z, hz⟩ := hy
    rw [hz]
    exact clampValue_mem e hmm z

theorem addPointLoop_subset (t : ℚ) :
    ∀ (l : List EnvPoint) (nn : ℕ) (p : EnvPoint), p ∈ addPointLoop t l nn → p ∈ l
  | l, 0, p, h => h
  | l, 1, p, h => h
  | l, nn + 2, p, h => by
    rw [addPointLoop] at h
    by_cases hc : tAt l nn = t
    · rw [if_pos hc] at h
      exact (List.eraseIdx_sublist l (nn + 1)).subset
        (addPointLoop_subset t (l.eraseIdx (nn + 1)) (nn + 1) p h)
    · rwa [if_neg hc] at h

/-- Claim C5: every write of a point value goes through `ClampValue`, so
each of the envelope's mutating operations preserves the invariant that
all stored point values and the default value lie within
`[minValue, maxValue]` (assuming a nonempty range `min ≤ max`;
`SetRange` and `RescaleValues` establish it directly for their new
range). -/
theorem claim_C5 (e : Envelope) (hmm : e.mMinValue ≤ e.mMaxValue)
    (he : valuesInRange e) (t w v minV maxV : ℚ) (i : ℕ) (b : Bool) :
    valuesInRange (e.InsertOrReplaceRelative t v).1 ∧
      valuesInRange (e.Reassign t v).1 ∧
      valuesInRange (e.Delete i) ∧
      valuesInRange (e.Flatten v) ∧
      (minV ≤ maxV → valuesInRange (e.SetRange minV maxV)) ∧
      (minV ≤ maxV → valuesInRange (e.RescaleValues minV maxV)) ∧
      valuesInRange (e.MoveDragPoint w v) ∧
      valuesInRange (e.AddPointAtEnd t v) ∧
      valuesInRange (e.SetDragPointValid b) := by
  obtain ⟨hpts, hd1, hd2⟩ := he
  refine ⟨?_, ?_, ?_, ?_, ?_, ?_, ?_, ?_, ?_⟩
  · rw [Envelope.InsertOrReplaceRelative]
    dsimp only
    split_ifs <;>
      first
        | exact ⟨hpts, hd1, hd2⟩
        | exact ⟨pointsInRange_set hmm hpts ⟨v, rfl⟩, hd1, hd2⟩
        | · refine ⟨?_, hd1, hd2⟩
            intro p hp
            rcases (List.mem_insertIdx (scanIndex_le_length e.mEnv _)).mp hp with rfl | hmem
            · exact clampValue_mem e hmm v
            · exact hpts p hmem
  · rw [Envelope.Reassign]
    dsimp only
    split_ifs <;>
      first
        | exact ⟨hpts, hd1, hd2⟩
        | exact ⟨pointsInRange_set hmm hpts ⟨v, rfl⟩, hd1, hd2⟩
  · exact ⟨fun p hp => hpts p ((List.eraseIdx_sublist e.mEnv i).subset hp), hd1, hd2⟩
  · exact ⟨by simp [Envelope.Flatten], clampValue_mem e hmm v⟩
  · intro hmm2
    refine ⟨?_, ?_⟩
    · intro p hp
      rw [Envelope.SetRange] at hp
      simp only [List.mem_map] at hp
      obtain ⟨q, hq, rfl⟩ := hp
      exact clampValue_mem _ hmm2 _
    · exact clampValue_mem { e with mMinValue := minV, mMaxValue := maxV } hmm2 _
  · intro hmm2
    refine ⟨?_, ?_⟩
    · intro p hp
      rw [Envelope.RescaleValues] at hp
      simp only [List.mem_map] at hp
      obtain ⟨q, hq, rfl⟩ := hp
      exact clampValue_mem _ hmm2 _
    · exact clampValue_mem { e with mMinValue := minV, mMaxValue := maxV } hmm2 _
  · rw [Envelope.MoveDragPoint, Envelope.SetDragPointValid]
    dsimp only
    rw [if_neg (by simp : ¬ (0 ≤ e.mDragPoint ∧ true = false))]
    by_cases hdp : 0 ≤ e.mDragPoint
    · rw [if_neg (by simp [hdp])]
      exact ⟨pointsInRange_set hmm hpts ⟨v, rfl⟩, hd1, hd2⟩
    · rw [if_pos (by simp [hdp])]
      exact ⟨hpts, hd1, hd2⟩
  · rw [Envelope.AddPointAtEnd]
    refine ⟨?_, hd1, hd2⟩
    intro p hp
    have hmem := addPointLoop_subset t _ _ p hp
    rcases List.mem_append.mp hmem with hmem | hmem
    · exact hpts p hmem
    · rw [List.mem_singleton.mp hmem]
      exact clampValue_mem e hmm v
  · rw [Envelope.SetDragPointValid]
    dsimp only
    split_ifs with h1 h2 h3
    · exact ⟨pointsInRange_set hmm hpts ⟨e.mDefaultValue, rfl⟩, hd1, hd2⟩
    · exact ⟨pointsInRange_set hmm hpts ⟨_, rfl⟩, hd1, hd2⟩
    · exact ⟨pointsInRange_set hmm hpts ⟨_, rfl⟩, hd1, hd2⟩
    · exact ⟨hpts, hd1, hd2⟩

/-- Witness for C5 on the sample envelope. -/
theorem claim_C5_witness :
    (sampleEnv.mMinValue ≤ sampleEnv.mMaxValue ∧ valuesInRange sampleEnv) ∧
      (valuesInRange (sampleEnv.InsertOrReplaceRelative 7 9).1 ∧
        valuesInRange (sampleEnv.Reassign 7 9).1 ∧
        valuesInRange (sampleEnv.Delete 1) ∧
        valuesInRange (sampleEnv.Flatten 9) ∧
        ((0:ℚ) ≤ 1 → valuesInRange (sampleEnv.SetRange 0 1)) ∧
        ((0:ℚ) ≤ 1 → valuesInRange (sampleEnv.RescaleValues 0 1)) ∧
        valuesInRange (sampleEnv.MoveDragPoint 20 9) ∧
        valuesInRange (sampleEnv.AddPointAtEnd 7 9) ∧
        valuesInRange (sampleEnv.SetDragPointValid false)) :=
  ⟨⟨by decide, by decide⟩, claim_C5 sampleEnv (by decide) (by decide) 7 20 9 0 1 1 false⟩

/-! ## Claim C8: `MoveDragPoint` -/

/-- A two-point envelope whose second point is engaged for dragging. -/
def dragEnv : Envelope :=
  { mDB := false, mMinValue := 0, mMaxValue := 1, mDefaultValue := 1/2,
    mOffset := 0, mTrackLen := 1, mEnv := [⟨0, 0⟩, ⟨1, 1⟩],
    mDragPoint := 1, mDragPointValid := true }

theorem tAt_set_ne {l : List EnvPoint} {j k : ℕ} (h : j ≠ k) (y : EnvPoint) :
    tAt (l.set j y) k = tAt l k := by
  rw [tAt, tAt, List.getD_eq_getElem?_getD, List.getD_eq_getElem?_getD,
    List.getElem?_set_ne h]

/-- Replacing one point by a point whose time stays (inclusively)
between its neighbours' times keeps the sequence weakly sorted. -/
theorem weakSorted_set_bounds {env : List EnvPoint} (hs : strictSorted env) {j : ℕ}
    (hj : j < env.length) {y : EnvPoint}
    (hlo : ∀ _ : 0 < j, tAt env (j - 1) ≤ y.GetT)
    (hhi : ∀ _ : j + 1 < env.length, y.GetT ≤ tAt env (j + 1)) :
    weakSorted (env.set j y) := by
  rw [weakSorted, List.chain'_iff_pairwise, timesOf, List.pairwise_map,
    List.pairwise_iff_getElem]
  intro a b ha hb hab
  have ha' : a < env.length := by simpa using ha
  have hb' : b < env.length := by simpa using hb
  rw [← tAt_eq_getElem _ a ha, ← tAt_eq_getElem _ b hb]
  by_cases haj : a = j
  · subst haj
    rw [tAt_set_self hj y, tAt_set_ne (by omega) y]
    have h1 : y.GetT ≤ tAt env (a + 1) := hhi (by omega)
    exact le_trans h1 (strictSorted_tAt_le hs (by omega) hb')
  · rw [tAt_set_ne (by omega) y]
    by_cases hbj : b = j
    · subst hbj
      rw [tAt_set_self hj y]
      have h1 : tAt env (b - 1) ≤ y.GetT := hlo (by omega)
      exact le_trans (strictSorted_tAt_le hs (by omega) (by omega)) h1
    · rw [tAt_set_ne (by omega) y]
      exact le_of_lt (strictSorted_tAt_lt hs hab hb')

/-- Claim C8 (amended): with a point engaged for dragging at a valid
index, `MoveDragPoint(newWhen, value)` clamps the new time
*inclusively* (not strictly) into the window bounded by the neighbour
times and the span boundaries `[0, spanLength]`, stores the clamped
value there, and moves no other point; the sequence stays weakly
(nondecreasingly) ordered by time — strictness can be lost, since the
clamp may land exactly on a neighbour's time (see the
counterexample). -/
theorem claim_C8 (e : Envelope) (w v : ℚ) (hs : strictSorted e.mEnv)
    (hin : ∀ p ∈ e.mEnv, 0 ≤ p.GetT ∧ p.GetT ≤ e.mTrackLen)
    (hdp0 : 0 ≤ e.mDragPoint) (hdpl : e.mDragPoint < (e.mEnv.length : ℤ)) :
    weakSorted (e.MoveDragPoint w v).mEnv ∧
      (e.MoveDragPoint w v).mEnv.length = e.mEnv.length ∧
      vAt (e.MoveDragPoint w v).mEnv e.mDragPoint.toNat = e.ClampValue v ∧
      (0 < e.mDragPoint.toNat →
        tAt e.mEnv (e.mDragPoint.toNat - 1) ≤ tAt (e.MoveDragPoint w v).mEnv e.mDragPoint.toNat) ∧
      0 ≤ tAt (e.MoveDragPoint w v).mEnv e.mDragPoint.toNat ∧
      (e.mDragPoint.toNat + 1 < e.mEnv.length →
        tAt (e.MoveDragPoint w v).mEnv e.mDragPoint.toNat ≤ tAt e.mEnv (e.mDragPoint.toNat + 1)) ∧
      tAt (e.MoveDragPoint w v).mEnv e.mDragPoint.toNat ≤ e.mTrackLen ∧
      (∀ k, k ≠ e.mDragPoint.toNat → tAt (e.MoveDragPoint w v).mEnv k = tAt e.mEnv k) := by
  have hdplen : e.mDragPoint.toNat < e.mEnv.length := by omega
  have hL0 : 0 ≤ e.mTrackLen := by
    have h := hin e.mEnv[e.mDragPoint.toNat] (List.getElem_mem hdplen)
    linarith [h.1, h.2]
  have hinT : ∀ k, k < e.mEnv.length → 0 ≤ tAt e.mEnv k ∧ tAt e.mEnv k ≤ e.mTrackLen := by
    intro k hk
    rw [tAt_eq_getElem e.mEnv k hk]
    exact hin _ (List.getElem_mem hk)
  rw [Envelope.MoveDragPoint, Envelope.SetDragPointValid]
  dsimp only
  rw [if_neg (by simp : ¬ (0 ≤ e.mDragPoint ∧ true = false)), if_neg (by simp [hdp0])]
  dsimp only
  set limitLo := if 0 < e.mDragPoint then max 0 (tAt e.mEnv (e.mDragPoint - 1).toNat) else (0:ℚ)
    with hLo
  set limitHi := if e.mDragPoint + 1 < (e.mEnv.length : ℤ) then
      min e.mTrackLen (tAt e.mEnv (e.mDragPoint + 1).toNat) else e.mTrackLen with hHi
  set tt := max limitLo (min limitHi w) with htt
  have hLo0 : 0 ≤ limitLo := by
    rw [hLo]
    split_ifs
    · exact le_max_left _ _
    · exact le_refl 0
  have hLolow : 0 < e.mDragPoint.toNat → tAt e.mEnv (e.mDragPoint.toNat - 1) ≤ limitLo := by
    intro hpos
    rw [hLo, if_pos (by omega)]
    have : (e.mDragPoint - 1).toNat = e.mDragPoint.toNat - 1 := by omega
    rw [this]
    exact le_max_right _ _
  have hHiL : limitHi ≤ e.mTrackLen := by
    rw [hHi]
    split_ifs
    · exact min_le_left _ _
    · exact le_refl _
  have hHihigh : e.mDragPoint.toNat + 1 < e.mEnv.length →
      limitHi ≤ tAt e.mEnv (e.mDragPoint.toNat + 1) := by
    intro hpos
    rw [hHi, if_pos (by omega)]
    have : (e.mDragPoint + 1).toNat = e.mDragPoint.toNat + 1 := by omega
    rw [this]
    exact min_le_right _ _
  have hLoHi : limitLo ≤ limitHi := by
    rw [hLo, hHi]
    split_ifs with h1 h2 h2
    · have hm1 : (e.mDragPoint - 1).toNat = e.mDragPoint.toNat - 1 := by omega
      have hm2 : (e.mDragPoint + 1).toNat = e.mDragPoint.toNat + 1 := by omega
      rw [hm1, hm2]
      have hb1 := hinT (e.mDragPoint.toNat - 1) (by omega)
      have hb2 := hinT (e.mDragPoint.toNat + 1) (by omega)
      have hlt : tAt e.mEnv (e.mDragPoint.toNat - 1) < tAt e.mEnv (e.mDragPoint.toNat + 1) :=
        strictSorted_tAt_lt hs (by omega) (by omega)
      refine max_le (le_min hL0 hb2.1) (le_min hb1.2 (le_of_lt hlt))
    · have hm1 : (e.mDragPoint - 1).toNat = e.mDragPoint.toNat - 1 := by omega
      rw [hm1]
      have hb1 := hinT (e.mDragPoint.toNat - 1) (by omega)
      exact max_le hL0 hb1.2
    · have hm2 : (e.mDragPoint + 1).toNat = e.mDragPoint.toNat + 1 := by omega
      rw [hm2]
      have hb2 := hinT (e.mDragPoint.toNat + 1) (by omega)
      exact le_min hL0 hb2.1
    · exact hL0
  have httlo : limitLo ≤ tt := le_max_left _ _
  have htthi : tt ≤ limitHi := max_le hLoHi (min_le_left _ _)
  have hyT : (((e.mEnv.getD e.mDragPoint.toNat default).SetT tt).SetVal
      { e with mDragPointValid := true && decide (0 ≤ e.mDragPoint) } v).GetT = tt := rfl
  refine ⟨?_, by simp, ?_, ?_, ?_, ?_, ?_, ?_⟩
  · refine weakSorted_set_bounds hs hdplen ?_ ?_
    · intro hpos
      rw [hyT]
      exact le_trans (hLolow hpos) httlo
    · intro hpos
      rw [hyT]
      exact le_trans htthi (hHihigh hpos)
  · rw [vAt_set_self hdplen]
    rfl
  · intro hpos
    rw [tAt_set_self hdplen, hyT]
    exact le_trans (hLolow hpos) httlo
  · rw [tAt_set_self hdplen, hyT]
    exact le_trans hLo0 httlo
  · intro hpos
    rw [tAt_set_self hdplen, hyT]
    exact le_trans htthi (hHihigh hpos)
  · rw [tAt_set_self hdplen, hyT]
    exact le_trans htthi hHiL
  · intro k hk
    exact tAt_set_ne (fun hc => hk hc.symm) _

/-- Counterexample to C8 as stated: dragging the second point of
`[(0,0), (1,1)]` to time `-5` clamps the time to `0` — the *inclusive*
lower limit — producing two points at time `0`: the new time is not
strictly between the neighbour times and the strict ordering is
violated. -/
theorem claim_C8_counterexample :
    strictSorted dragEnv.mEnv ∧
      timesOf (dragEnv.MoveDragPoint (-5) 0).mEnv = [0, 0] ∧
      ¬ strictSorted (dragEnv.MoveDragPoint (-5) 0).mEnv :=
  ⟨by decide, by decide, by decide⟩

/-- Witness for C8 on the two-point drag envelope. -/
theorem claim_C8_witness :
    (strictSorted dragEnv.mEnv ∧ (∀ p ∈ dragEnv.mEnv, 0 ≤ p.GetT ∧ p.GetT ≤ dragEnv.mTrackLen) ∧
        (0:ℤ) ≤ dragEnv.mDragPoint ∧ dragEnv.mDragPoint < (dragEnv.mEnv.length : ℤ)) ∧
      (weakSorted (dragEnv.MoveDragPoint (-5) 0).mEnv ∧
        (dragEnv.MoveDragPoint (-5) 0).mEnv.length = dragEnv.mEnv.length ∧
        vAt (dragEnv.MoveDragPoint (-5) 0).mEnv dragEnv.mDragPoint.toNat = dragEnv.ClampValue 0 ∧
        (0 < dragEnv.mDragPoint.toNat →
          tAt dragEnv.mEnv (dragEnv.mDragPoint.toNat - 1) ≤
            tAt (dragEnv.MoveDragPoint (-5) 0).mEnv dragEnv.mDragPoint.toNat) ∧
        0 ≤ tAt (dragEnv.MoveDragPoint (-5) 0).mEnv dragEnv.mDragPoint.toNat ∧
        (dragEnv.mDragPoint.toNat + 1 < dragEnv.mEnv.length →
          tAt (dragEnv.MoveDragPoint (-5) 0).mEnv dragEnv.mDragPoint.toNat ≤
            tAt dragEnv.mEnv (dragEnv.mDragPoint.toNat + 1)) ∧
        tAt (dragEnv.MoveDragPoint (-5) 0).mEnv dragEnv.mDragPoint.toNat ≤ dragEnv.mTrackLen ∧
        (∀ k, k ≠ dragEnv.mDragPoint.toNat →
          tAt (dragEnv.MoveDragPoint (-5) 0).mEnv k = tAt dragEnv.mEnv k)) :=
  ⟨⟨by decide, by decide, by decide, by decide⟩,
    claim_C8 dragEnv (-5) 0 (by decide) (by decide) (by decide) (by decide)⟩

/-! ## Claim C6: the incremental stepping of `GetValues` -/

/-- The recompute formula at the left end of its bracket yields the raw
left value in Linear mode and `E (L value)` in Logarithmic mode. -/
theorem bracketFormula_left {L E : ℚ → ℚ} {e : Envelope} {i : ℕ}
    (hdt : tAt e.mEnv i < tAt e.mEnv (i + 1)) :
    bracketFormula L E e i (tAt e.mEnv i) =
      if e.mDB = true then E (startValue L e i) else startValue L e i := by
  have hdt' : (0:ℚ) < tAt e.mEnv (i + 1) - tAt e.mEnv i := by linarith
  have hne := ne_of_gt hdt'
  rw [bracketFormula]
  simp only [if_pos hdt']
  rw [sub_self, mul_zero, add_zero, sub_zero, mul_div_assoc, div_self hne, mul_one]

/-- The recompute formula at the right end of its bracket yields the raw
right value in Linear mode and `E (L value)` in Logarithmic mode. -/
theorem bracketFormula_right {L E : ℚ → ℚ} {e : Envelope} {i : ℕ}
    (hdt : tAt e.mEnv i < tAt e.mEnv (i + 1)) :
    bracketFormula L E e i (tAt e.mEnv (i + 1)) =
      if e.mDB = true then E (startValue L e (i + 1)) else startValue L e (i + 1) := by
  have hdt' : (0:ℚ) < tAt e.mEnv (i + 1) - tAt e.mEnv i := by linarith
  have hne := ne_of_gt hdt'
  rw [bracketFormula]
  simp only [if_pos hdt']
  rw [sub_self, mul_zero, zero_add, mul_div_assoc, div_self hne, mul_one]

/-- `startValue` unfolds to the stored value (Linear) or its transform
(Logarithmic). -/
theorem startValue_db {L : ℚ → ℚ} {e : Envelope} (hdb : e.mDB = true) (i : ℕ) :
    startValue L e i = L (vAt e.mEnv i) := by
  rw [startValue, hdb]
  simp

theorem startValue_lin {L : ℚ → ℚ} {e : Envelope} (hdb : e.mDB = false) (i : ℕ) :
    startValue L e i = vAt e.mEnv i := by
  rw [startValue, hdb]
  simp

/-- On the closed bracket `[points[i].time, points[i+1].time]`, a single
sample of `GetValuesRelative` equals the recompute formula of bracket
`i` (in Logarithmic mode, assuming `10^(log10 v) = v` on the stored
values). -/
theorem valueFormula_on_bracket (L E : ℚ → ℚ) {e : Envelope}
    (hs : strictSorted e.mEnv)
    (hEL : e.mDB = true → ∀ p ∈ e.mEnv, E (L p.GetVal) = p.GetVal)
    {i : ℕ} (hi1 : i + 1 < e.mEnv.length) {u : ℚ}
    (h1 : tAt e.mEnv i ≤ u) (h2 : u ≤ tAt e.mEnv (i + 1)) :
    valueFormula L E e u = bracketFormula L E e i u := by
  have hlen : e.mEnv.length ≠ 0 := by omega
  have hdt : tAt e.mEnv i < tAt e.mEnv (i + 1) :=
    strictSorted_tAt_lt hs (Nat.lt_succ_self i) hi1
  have hEL' : e.mDB = true → ∀ k, k < e.mEnv.length → E (L (vAt e.mEnv k)) = vAt e.mEnv k := by
    intro hdb k hk
    rw [vAt_eq_getElem e.mEnv k hk]
    exact hEL hdb _ (List.getElem_mem hk)
  by_cases hu0 : u ≤ tAt e.mEnv 0
  · have hi0 : i = 0 := by
      by_contra hc
      have := strictSorted_tAt_lt hs (Nat.pos_of_ne_zero hc) (by omega)
      linarith [strictSorted_tAt_le hs (Nat.zero_le i) (by omega)]
    subst hi0
    have hueq : u = tAt e.mEnv 0 := le_antisymm hu0 h1
    rw [valueFormula, if_neg hlen, if_pos hu0, hueq, bracketFormula_left hdt]
    cases hdb : e.mDB with
    | false => rw [if_neg (by simp), startValue_lin hdb]
    | true => rw [if_pos rfl, startValue_db hdb, hEL' hdb 0 (by omega)]
  · by_cases hulast : tAt e.mEnv (e.mEnv.length - 1) ≤ u
    · have hle : tAt e.mEnv (i + 1) ≤ tAt e.mEnv (e.mEnv.length - 1) :=
        strictSorted_tAt_le hs (by omega) (by omega)
      have hueq : u = tAt e.mEnv (i + 1) := le_antisymm h2 (by linarith)
      have hidx : i + 1 = e.mEnv.length - 1 := by
        by_contra hc
        have := strictSorted_tAt_lt hs (show i + 1 < e.mEnv.length - 1 by omega) (by omega)
        linarith
      rw [valueFormula, if_neg hlen, if_neg hu0, if_pos hulast, hueq,
        bracketFormula_right hdt, hidx]
      cases hdb : e.mDB with
      | false => rw [if_neg (by simp), startValue_lin hdb]
      | true =>
        rw [if_pos rfl, startValue_db hdb, hEL' hdb (e.mEnv.length - 1) (by omega)]
    · rw [valueFormula, if_neg hlen, if_neg hu0, if_neg hulast]
      by_cases hueq : u = tAt e.mEnv (i + 1)
      · have hc1 : i + 1 < canonIdx e.mEnv u :=
          canonIdx_ge hs (by omega) hueq.ge
        have hnext : i + 2 < e.mEnv.length := by
          by_contra hc
          have hi2 : i + 1 = e.mEnv.length - 1 := by omega
          rw [hi2] at hueq
          exact hulast (le_of_eq hueq.symm)
        have hc2 : canonIdx e.mEnv u ≤ i + 2 := by
          apply canonIdx_lt
          rw [hueq]
          exact strictSorted_tAt_lt hs (Nat.lt_succ_self (i + 1)) hnext
        have hceq : canonIdx e.mEnv u - 1 = i + 1 := by omega
        rw [hceq]
        have hdt2 : tAt e.mEnv (i + 1) < tAt e.mEnv (i + 2) :=
          strictSorted_tAt_lt hs (Nat.lt_succ_self (i + 1)) hnext
        have hbl : bracketFormula L E e (i + 1) u =
            if e.mDB = true then E (startValue L e (i + 1)) else startValue L e (i + 1) := by
          rw [hueq]
          exact bracketFormula_left hdt2
        have hbr : bracketFormula L E e i u =
            if e.mDB = true then E (startValue L e (i + 1)) else startValue L e (i + 1) := by
          rw [hueq]
          exact bracketFormula_right hdt
        rw [hbl, hbr]
      · have hc1 : i < canonIdx e.mEnv u := canonIdx_ge hs (by omega) h1
        have hc2 : canonIdx e.mEnv u ≤ i + 1 := canonIdx_lt (lt_of_le_of_ne h2 hueq)
        have hceq : canonIdx e.mEnv u - 1 = i := by omega
        rw [hceq]

/-- Stepping the recompute formula by `tstep` inside one bracket adds
the per-step delta (Linear) or multiplies by the per-step ratio
(Logarithmic, for a homomorphic `E`). -/
theorem bracketFormula_step (L E : ℚ → ℚ) {e : Envelope}
    (hE : e.mDB = true → ∀ x y, E (x + y) = E x * E y)
    {i : ℕ} (hdt : tAt e.mEnv i < tAt e.mEnv (i + 1)) (u tstep : ℚ) :
    bracketFormula L E e i (u + tstep) =
      if e.mDB = true then bracketFormula L E e i u * bracketVStep L E e i tstep
      else bracketFormula L E e i u + bracketVStep L E e i tstep := by
  have hdt' : (0:ℚ) < tAt e.mEnv (i + 1) - tAt e.mEnv i := by linarith
  have hne := ne_of_gt hdt'
  have key : (startValue L e i * (tAt e.mEnv (i + 1) - tAt e.mEnv i - (u + tstep - tAt e.mEnv i)) +
        startValue L e (i + 1) * (u + tstep - tAt e.mEnv i)) / (tAt e.mEnv (i + 1) - tAt e.mEnv i) =
      (startValue L e i * (tAt e.mEnv (i + 1) - tAt e.mEnv i - (u - tAt e.mEnv i)) +
        startValue L e (i + 1) * (u - tAt e.mEnv i)) / (tAt e.mEnv (i + 1) - tAt e.mEnv i) +
      (startValue L e (i + 1) - startValue L e i) * tstep / (tAt e.mEnv (i + 1) - tAt e.mEnv i) := by
    field_simp
    ring
  rw [bracketFormula, bracketFormula, bracketVStep]
  simp only [if_pos hdt']
  rw [key]
  cases hdb : e.mDB with
  | false => simp
  | true => simp [hE hdb]

/-- The branch of `GetValuesRelative` for an empty point sequence. -/
theorem gvrStep_empty (L E : ℚ → ℚ) (e : Envelope) (tstep t : ℚ) (s : GVState)
    (hlen : e.mEnv.length = 0) :
    gvrStep L E e tstep t s =
      (e.mDefaultValue, { s with isFirst := false, prev := e.mDefaultValue }) := by
  rw [gvrStep]
  simp only [if_pos hlen]

/-- The branch of `GetValuesRelative` for a sample time at or before the
first point. -/
theorem gvrStep_before (L E : ℚ → ℚ) (e : Envelope) (tstep t : ℚ) (s : GVState)
    (hlen : e.mEnv.length ≠ 0) (h0 : t ≤ tAt e.mEnv 0) :
    gvrStep L E e tstep t s =
      (vAt e.mEnv 0, { s with isFirst := false, prev := vAt e.mEnv 0 }) := by
  rw [gvrStep]
  simp only [if_neg hlen, if_pos h0]

/-- The branch of `GetValuesRelative` for a sample time at or after the
last point. -/
theorem gvrStep_after (L E : ℚ → ℚ) (e : Envelope) (tstep t : ℚ) (s : GVState)
    (hlen : e.mEnv.length ≠ 0) (h0 : ¬ t ≤ tAt e.mEnv 0)
    (h1 : tAt e.mEnv (e.mEnv.length - 1) ≤ t) :
    gvrStep L E e tstep t s =
      (vAt e.mEnv (e.mEnv.length - 1),
        { s with isFirst := false, prev := vAt e.mEnv (e.mEnv.length - 1) }) := by
  rw [gvrStep]
  simp only [if_neg hlen, if_neg h0, if_pos h1]

/-- The incremental branch of `GetValuesRelative`: a cached bracket that
still covers the sample time steps the previous sample by `vstep`. -/
theorem gvrStep_warm (L E : ℚ → ℚ) (e : Envelope) (tstep t : ℚ) (s : GVState)
    (hlen : e.mEnv.length ≠ 0) (h0 : ¬ t ≤ tAt e.mEnv 0)
    (h1 : ¬ tAt e.mEnv (e.mEnv.length - 1) ≤ t)
    (hcond : ¬ (s.isFirst = true ∨ s.tnext < t)) :
    gvrStep L E e tstep t s =
      (if e.mDB = true then s.prev * s.vstep else s.prev + s.vstep,
        { s with
            isFirst := false,
            prev := if e.mDB = true then s.prev * s.vstep else s.prev + s.vstep }) := by
  rw [gvrStep]
  simp only [if_neg hlen, if_neg h0, if_neg h1, if_neg hcond]

/-- After the recompute branch (for sorted points, at an interior sample
time), the cached bracket end, step and previous sample are those of the
canonical bracket. -/
theorem gvrStep_recompute_cache (L E : ℚ → ℚ) {e : Envelope}
    (hs : strictSorted e.mEnv) (s : GVState) (tstep t : ℚ)
    (hlen : e.mEnv.length ≠ 0) (h0 : ¬ t ≤ tAt e.mEnv 0)
    (h1 : ¬ tAt e.mEnv (e.mEnv.length - 1) ≤ t)
    (hcond : s.isFirst = true ∨ s.tnext < t) :
    ((gvrStep L E e tstep t s).2).tnext = tAt e.mEnv (canonIdx e.mEnv t) ∧
      ((gvrStep L E e tstep t s).2).vstep =
        bracketVStep L E e (canonIdx e.mEnv t - 1) tstep ∧
      ((gvrStep L E e tstep t s).2).prev = (gvrStep L E e tstep t s).1 := by
  rw [gvrStep]
  have hcan := binarySearch_eq_canon hs s.guess t
  obtain ⟨hc1, hc2⟩ := canonIdx_interior hs hlen (lt_of_not_ge h0) (lt_of_not_ge h1)
  have htn1 : ((canonIdx e.mEnv t : ℤ) - 1).toNat = canonIdx e.mEnv t - 1 := by omega
  have htn2 : ((canonIdx e.mEnv t : ℤ)).toNat = canonIdx e.mEnv t := by omega
  have hsucc : canonIdx e.mEnv t - 1 + 1 = canonIdx e.mEnv t := by omega
  refine ⟨?_, ?_, ?_⟩
  · simp only [if_neg hlen, if_neg h0, if_neg h1, if_pos hcond, hcan, htn2]
  · simp only [if_neg hlen, if_neg h0, if_neg h1, if_pos hcond, hcan, htn1, htn2]
    rw [bracketVStep]
    simp only [hsucc]
  · simp only [if_neg hlen, if_neg h0, if_neg h1, if_pos hcond]

/-- The state invariant of the `GetValuesRelative` loop just after the
iteration that sampled at time `u` (or, with `tnext ≤ 0`, before any
iteration): the cached bracket end is still the initial `0`, or it is a
genuine bracket `(i, i+1)` containing `u` with matching cached step and
previous sample, or `u` already lay at or beyond the last point. -/
def gvrInvAt (L E : ℚ → ℚ) (e : Envelope) (tstep u : ℚ) (s : GVState) : Prop :=
  s.tnext ≤ 0 ∨
    (∃ i : ℕ, i + 1 < e.mEnv.length ∧ s.tnext = tAt e.mEnv (i + 1) ∧
      tAt e.mEnv i ≤ u ∧ u ≤ tAt e.mEnv (i + 1) ∧
      s.vstep = bracketVStep L E e i tstep ∧
      s.prev = valueFormula L E e u) ∨
    (e.mEnv.length ≠ 0 ∧ tAt e.mEnv (e.mEnv.length - 1) ≤ u)

/-- One iteration from an invariant state emits the closed-form sample
and re-establishes the invariant — the heart of the claim that the
incremental stepping agrees with independent `GetValue` calls. -/
theorem gvrStep_inv (L E : ℚ → ℚ) {e : Envelope}
    (hs : strictSorted e.mEnv) (hpos : ∀ p ∈ e.mEnv, 0 ≤ p.GetT)
    (hE : e.mDB = true → ∀ x y, E (x + y) = E x * E y)
    (hEL : e.mDB = true → ∀ p ∈ e.mEnv, E (L p.GetVal) = p.GetVal)
    {tstep : ℚ} (hstep : 0 ≤ tstep) (t : ℚ) (s : GVState)
    (hinv : gvrInvAt L E e tstep (t - tstep) s) :
    (gvrStep L E e tstep t s).1 = valueFormula L E e t ∧
      gvrInvAt L E e tstep t (gvrStep L E e tstep t s).2 := by
  by_cases hlen : e.mEnv.length = 0
  · rw [gvrStep_empty L E e tstep t s hlen]
    refine ⟨by rw [valueFormula, if_pos hlen], ?_⟩
    rcases hinv with h | ⟨i, hi1, _⟩ | ⟨h3, _⟩
    · exact Or.inl h
    · exact absurd hi1 (by omega)
    · exact absurd hlen h3
  · by_cases h0 : t ≤ tAt e.mEnv 0
    · rw [gvrStep_before L E e tstep t s hlen h0]
      refine ⟨by rw [valueFormula, if_neg hlen, if_pos h0], ?_⟩
      rcases hinv with h | ⟨i, hi1, htn, hl, hr, hv, hp⟩ | ⟨h3a, h3b⟩
      · exact Or.inl h
      · refine Or.inr (Or.inl ⟨i, hi1, htn, by linarith, ?_, hv, ?_⟩)
        · have h0i : tAt e.mEnv 0 ≤ tAt e.mEnv i :=
            strictSorted_tAt_le hs (Nat.zero_le i) (by omega)
          have hii : tAt e.mEnv i < tAt e.mEnv (i + 1) :=
            strictSorted_tAt_lt hs (Nat.lt_succ_self i) hi1
          linarith
        · rw [valueFormula, if_neg hlen, if_pos h0]
      · exact Or.inr (Or.inr ⟨h3a, by linarith⟩)
    · by_cases h1 : tAt e.mEnv (e.mEnv.length - 1) ≤ t
      · rw [gvrStep_after L E e tstep t s hlen h0 h1]
        exact ⟨by rw [valueFormula, if_neg hlen, if_neg h0, if_pos h1],
          Or.inr (Or.inr ⟨hlen, h1⟩)⟩
      · by_cases hcond : s.isFirst = true ∨ s.tnext < t
        · obtain ⟨htn, hvs, hpv⟩ :=
            gvrStep_recompute_cache L E hs s tstep t hlen h0 h1 hcond
          obtain ⟨hc1, hc2⟩ :=
            canonIdx_interior hs hlen (lt_of_not_ge h0) (lt_of_not_ge h1)
          have hhead := gvrStep_cold_eq_valueFormula L E hs s tstep t hcond
          refine ⟨hhead, Or.inr (Or.inl
            ⟨canonIdx e.mEnv t - 1, by omega, ?_, ?_, ?_, hvs, ?_⟩)⟩
          · rw [htn]
            congr 1
            omega
          · exact canonIdx_spec_le e.mEnv t (by omega)
          · have hgt := canonIdx_spec_gt e.mEnv t (by omega)
            have hsucc : canonIdx e.mEnv t - 1 + 1 = canonIdx e.mEnv t := by omega
            rw [hsucc]
            linarith
          · rw [hpv, hhead]
        · rw [gvrStep_warm L E e tstep t s hlen h0 h1 hcond]
          push_neg at hcond
          obtain ⟨hfirst, hble⟩ := hcond
          rcases hinv with h | ⟨i, hi1, htn, hl, hr, hv, hp⟩ | ⟨h3a, h3b⟩
          · exfalso
            have hp0 : 0 ≤ tAt e.mEnv 0 := by
              rw [tAt_eq_getElem e.mEnv 0 (by omega)]
              exact hpos _ (List.getElem_mem _)
            have h0' := lt_of_not_ge h0
            linarith
          · have hdt : tAt e.mEnv i < tAt e.mEnv (i + 1) :=
              strictSorted_tAt_lt hs (Nat.lt_succ_self i) hi1
            have hble' : t ≤ tAt e.mEnv (i + 1) := htn ▸ hble
            have hlt : tAt e.mEnv i ≤ t := by linarith
            have hb1 := valueFormula_on_bracket L E hs hEL hi1 hl hr
            have hb2 := valueFormula_on_bracket L E hs hEL hi1 hlt hble'
            have hstep_eq := bracketFormula_step L E hE hdt (t - tstep) tstep
            have harg : t - tstep + tstep = t := by ring
            rw [harg] at hstep_eq
            have hhead : (if e.mDB = true then s.prev * s.vstep
                else s.prev + s.vstep) = valueFormula L E e t := by
              rw [hp, hv, hb1, hb2, hstep_eq]
            exact ⟨hhead, Or.inr (Or.inl ⟨i, hi1, htn, hlt, hble', hv, hhead⟩)⟩
          · exact absurd (by linarith : tAt e.mEnv (e.mEnv.length - 1) ≤ t) h1

/-- Under the invariant, the whole loop emits exactly the closed-form
samples. -/
theorem gvrLoop_eq_map (L E : ℚ → ℚ) {e : Envelope}
    (hs : strictSorted e.mEnv) (hpos : ∀ p ∈ e.mEnv, 0 ≤ p.GetT)
    (hE : e.mDB = true → ∀ x y, E (x + y) = E x * E y)
    (hEL : e.mDB = true → ∀ p ∈ e.mEnv, E (L p.GetVal) = p.GetVal)
    {tstep : ℚ} (hstep : 0 ≤ tstep) (n : ℕ) :
    ∀ (t : ℚ) (s : GVState), gvrInvAt L E e tstep (t - tstep) s →
      gvrLoop L E e tstep n t s =
        (List.range n).map (fun k : ℕ => valueFormula L E e (t + (k : ℚ) * tstep)) := by
  induction n with
  | zero =>
    intro t s _
    simp [gvrLoop]
  | succ n ih =>
    intro t s hinv
    obtain ⟨hhead, hinv'⟩ := gvrStep_inv L E hs hpos hE hEL hstep t s hinv
    have hinv'' : gvrInvAt L E e tstep (t + tstep - tstep)
        (gvrStep L E e tstep t s).2 := by
      rw [show t + tstep - tstep = t from by ring]
      exact hinv'
    rw [gvrLoop, hhead, ih (t + tstep) (gvrStep L E e tstep t s).2 hinv'',
      List.range_succ_eq_map, List.map_cons, List.map_map]
    congr 1
    · simp
    · refine List.map_congr_left ?_
      intro k hk
      have harg : t + tstep + (k : ℚ) * tstep = t + ((Nat.succ k : ℕ) : ℚ) * tstep := by
        push_cast
        ring
      simp only [Function.comp_apply, harg]

/-- C6: for every envelope with strictly ascending, nonnegative point
times, every search-hint pair, every count, every start time and every
nonnegative step — and, in Logarithmic mode, an exponential `E` that is
a homomorphism (`10^(a+b) = 10^a * 10^b`) inverting `L` on the stored
values (`10^(log10 v) = v`) — the buffer filled by `GetValues` holds at
each index `k` the same value as an independent call `GetValue(t0 + k*tstep)`. -/
theorem claim_C6 (L E : ℚ → ℚ) (e : Envelope)
    (hs : strictSorted e.mEnv) (hpos : ∀ p ∈ e.mEnv, 0 ≤ p.GetT)
    (hE : e.mDB = true → ∀ x y, E (x + y) = E x * E y)
    (hEL : e.mDB = true → ∀ p ∈ e.mEnv, E (L p.GetVal) = p.GetVal)
    (g g' : ℤ) (n : ℕ) (t0 : ℚ) {tstep : ℚ} (hstep : 0 ≤ tstep) :
    e.GetValues L E g n t0 tstep =
      (List.range n).map (fun k : ℕ => e.GetValue L E g' (t0 + (k : ℚ) * tstep)) := by
  rw [Envelope.GetValues, Envelope.GetValuesRelative,
    gvrLoop_eq_map L E hs hpos hE hEL hstep n (t0 - e.mOffset) (GVState.init g)
      (Or.inl (le_of_eq rfl))]
  refine List.map_congr_left ?_
  intro k hk
  rw [Envelope.GetValue,
    getValueRelative_eq_valueFormula L E hs g' (t0 + (k : ℚ) * tstep - e.mOffset)]
  congr 1
  ring

/-- Witness for C6: on the concrete linear-mode envelope `sampleEnv`
the hypotheses hold, the claim instantiates, and the three-sample
buffer evaluates to `[1/5, 3/5, 1]`. -/
theorem claim_C6_witness :
    (strictSorted sampleEnv.mEnv ∧ (∀ p ∈ sampleEnv.mEnv, 0 ≤ p.GetT) ∧
        (0 : ℚ) ≤ 2) ∧
      sampleEnv.GetValues id id (-1) 3 1 2 =
        (List.range 3).map (fun k : ℕ => sampleEnv.GetValue id id 7 (1 + (k : ℚ) * 2)) ∧
      sampleEnv.GetValues id id (-1) 3 1 2 = [1/5, 3/5, 1] :=
  ⟨⟨by decide, by decide, by decide⟩,
    claim_C6 id id sampleEnv (by decide) (by decide)
      (fun h => absurd h (by decide)) (fun h => absurd h (by decide))
      (-1) 7 3 1 (by decide),
    by decide⟩

/-- A three-point linear-mode envelope on which a negative-step
`GetValues` call disagrees with independent `GetValue` calls. -/
def c6e : Envelope :=
  { mDB := false, mMinValue := 0, mMaxValue := 10, mDefaultValue := 1,
    mOffset := 0, mTrackLen := 100, mEnv := [⟨1, 0⟩, ⟨2, 0⟩, ⟨3, 10⟩],
    mDragPoint := -1, mDragPointValid := false }

/-- C6 counterexample to the unconditional claim (for every step
tstep): on a sorted linear-mode envelope with nonnegative point times,
`GetValues` with `count = 2`, `t0 = 5/2`, `tstep = -1` emits `-5` as its
second sample — the stale cached bracket `(2,3)` is stepped backwards —
while the independent `GetValue(t0 + 1*tstep) = GetValue(3/2)` is `0`
(the sample lies in the flat bracket `(1,2)`). -/
theorem claim_C6_counterexample :
    strictSorted c6e.mEnv ∧ (∀ p ∈ c6e.mEnv, 0 ≤ p.GetT) ∧
      (c6e.GetValues id id (-1) 2 (5/2) (-1)).getD 1 0 ≠
        c6e.GetValue id id (-1) (5/2 + (1 : ℚ) * (-1)) :=
  ⟨by decide, by decide, by decide⟩

end Audacity
